import Mathlib

/-!
# Maximal primitive tandem repeats (Crochemore's partitioning)

A shallow embedding of `Repetition/TandemRepeats.h` and
`Repetition/TandemRepeats.cpp`.

Conventions of the embedding.

* A `std::string` is a `List Nat`: each element is the value the source uses
  as table index for that character (`xi` in `s_Initial`, converted to the
  unsigned index type of `std::array`).  Two characters are equal exactly when
  their codes are equal.  The table `pos` has 256 entries, so a code of 256 or
  more is an access outside the table; the embedding returns `none` there.
  (Where `char` is signed, a character above 127 gives a negative `xi`, whose
  conversion to the index type is far above 255: it is such a code.)
* String positions and counters (`int` in the source) are natural numbers, and
  the cast `(int)str.size()` is the length itself; the class identifiers
  stored in `pos` and `index` are integers, because both tables are filled
  with `-1` initially.  The embedding is exact as long as the length fits an
  `int` and no `int` overflows, that is for strings shorter than `2 ^ 30`
  characters.
* `std::list<int>` and `std::vector<...>` are lists; `std::map<int, ...>` is
  an association list kept sorted by key, which is the order in which the
  source iterates over it.
* Reading or writing a vector element outside its bounds has no defined
  result in the source; the embedded function returns `none`.
-/

namespace Repetition

/-! ## The data type `STandemRepeat` -/

/-- A tandem repeat record: `start`, `repeat_len` and `num_repeats`. -/
structure STandemRepeat where
  start : Nat
  repeat_len : Nat
  num_repeats : Nat
deriving DecidableEq

namespace STandemRepeat

/-- The member `span()`: `repeat_len * num_repeats` in 64-bit unsigned
arithmetic. -/
def span (r : STandemRepeat) : Nat := (r.repeat_len * r.num_repeats) % 2 ^ 64

/-- The member `operator <`: lexicographic comparison of the tuples
`(start, span())`. -/
def lt (a b : STandemRepeat) : Bool :=
  decide (a.start < b.start) || (a.start == b.start && decide (a.span < b.span))

/-- The member `operator ==`: comparison of the tuples
`(start, repeat_len, num_repeats)`. -/
def eq (a b : STandemRepeat) : Bool :=
  a.start == b.start && a.repeat_len == b.repeat_len && a.num_repeats == b.num_repeats

end STandemRepeat

/-! ## `s_SelectRepeats` -/

/-- The `while (current != eClass.end())` loop of `s_SelectRepeats` together
with the tail test after it.  `start` is the first element of the probe, `e`
the number of repeats counted so far, and the list is what remains of the
class from `current` on. -/
def selectProbe (p : Nat) : Nat → Nat → List Nat → List STandemRepeat
  | start, e, [] => if e > 1 then [⟨start, p, e⟩] else []
  | start, e, current :: rest =>
    if start + p * e ≠ current then
      (if e > 1 then [⟨start, p, e⟩] else []) ++ selectProbe p current 1 rest
    else
      selectProbe p start (e + 1) rest

/-- The body of the outer loop of `s_SelectRepeats` for one class. -/
def selectClass (p : Nat) (eClass : List Nat) : List STandemRepeat :=
  if eClass.length ≤ 1 then []
  else
    match eClass with
    | [] => []
    | start :: rest => selectProbe p start 1 rest

/-- The function `s_SelectRepeats(p, e_class)`. -/
def s_SelectRepeats (p : Nat) : List (List Nat) → List STandemRepeat
  | [] => []
  | eClass :: rest => selectClass p eClass ++ s_SelectRepeats p rest

/-! ## `s_Initial` -/

/-- The statement `eClass[key].emplace_back(v)` on a `std::map<int, list<int>>`
held as an association list sorted by key. -/
def mapAppend : List (Int × List Nat) → Int → Nat → List (Int × List Nat)
  | [], key, v => [(key, [v])]
  | (k, l) :: rest, key, v =>
    if key = k then (k, l ++ [v]) :: rest
    else if key < k then (key, [v]) :: (k, l) :: rest
    else (k, l) :: mapAppend rest key v

/-- The local variables `pos`, `eClass` and `index` of `s_Initial`. -/
structure InitState where
  pos : List Int
  eClass : List (Int × List Nat)
  index : Int

/-- The character code `xi` the collecting loop of `s_Initial` uses at
position `i`: `0` at the end of the string, `str[i]` otherwise. -/
def charCode (str : List Nat) (i : Nat) : Nat :=
  if i = str.length then 0 else str.getD i 0

/-- One iteration of the collecting loop of `s_Initial`, at position `i`. -/
def initialStep (str : List Nat) (st : InitState) (i : Nat) : Option InitState :=
  let xi := charCode str i
  if xi < st.pos.length then
    let st1 : InitState :=
      if st.pos.getD xi 0 < 0 then
        { pos := st.pos.set xi st.index, eClass := st.eClass, index := st.index + 1 }
      else st
    some { st1 with eClass := mapAppend st1.eClass (st1.pos.getD xi 0) i }
  else none

/-- The collecting loop of `s_Initial`: `k` iterations from position `i` on. -/
def initialCollect (str : List Nat) : Nat → Nat → InitState → Option InitState
  | 0, _, st => some st
  | k + 1, i, st =>
    match initialStep str st i with
    | none => none
    | some st1 => initialCollect str k (i + 1) st1

/-- The loop `for (const auto item : cls) index[item] = c`. -/
def assignClass (c : Int) : List Nat → List Int → List Int
  | [], index => index
  | item :: rest, index => assignClass c rest (index.set item c)

/-- The index building loop shared by `s_Initial` and `s_Refine`: the members
of the class at list position `c`, `c + 1`, ... get that position as index
entry. -/
def assignIndex : List (List Nat) → Nat → List Int → List Int
  | [], _, index => index
  | cls :: rest, c, index => assignIndex rest (c + 1) (assignClass c cls index)

/-- The function `s_Initial(str)`: the classes of equal characters and the
index of the class of every position. -/
def s_Initial (str : List Nat) : Option (List (List Nat) × List Int) :=
  match initialCollect str (str.length + 1) 0
      { pos := List.replicate 256 (-1), eClass := [], index := 0 } with
  | none => none
  | some st =>
    let result := st.eClass.map Prod.snd
    some (result, assignIndex result 0 (List.replicate (str.length + 1) (-1)))

/-! ## `s_Refine` -/

/-- The loop `for (const auto eItem : eClass)` of `s_Refine`, which appends
every member to the split selected by the index entry of the next position. -/
def refineSplit (index : List Int) : List Nat → List (List Nat) → Option (List (List Nat))
  | [], splits => some splits
  | eItem :: rest, splits =>
    match index[eItem + 1]? with
    | none => none
    | some next =>
      if 0 ≤ next ∧ next.toNat < splits.length then
        refineSplit index rest
          (splits.set next.toNat (splits.getD next.toNat [] ++ [eItem]))
      else none

/-- The loop `for (const auto& eClass : e)` of `s_Refine`; `size` is
`e.size()`. -/
def refineClasses (size : Nat) (index : List Int) :
    List (List Nat) → Option (List (List Nat))
  | [] => some []
  | eClass :: rest =>
    if eClass.length ≤ 1 then refineClasses size index rest
    else
      match refineSplit index eClass (List.replicate size []) with
      | none => none
      | some splits =>
        match refineClasses size index rest with
        | none => none
        | some result => some (splits.filter (fun split => !split.isEmpty) ++ result)

/-- The function `s_Refine(e, index)`: the refined classes and the rebuilt
index. -/
def s_Refine (e : List (List Nat)) (index : List Int) :
    Option (List (List Nat) × List Int) :=
  match refineClasses e.length index e with
  | none => none
  | some result => some (result, assignIndex result 0 index)

/-! ## The driver `g_MaximalPrimitiveTandemRepeats` -/

/-- The local variables of `g_MaximalPrimitiveTandemRepeats` that change in
its loop. -/
structure LoopState where
  p : Nat
  eClass : List (List Nat)
  index : List Int
  result : List STandemRepeat

/-- The loop condition `!eClass.empty() && p <= (int)str.size() / 2`. -/
def loopCond (size : Nat) (st : LoopState) : Bool :=
  !st.eClass.isEmpty && decide (st.p ≤ size / 2)

/-- The loop body: select the repeats of period `p`, refine, increment `p`. -/
def loopBody (st : LoopState) : Option LoopState :=
  match s_Refine st.eClass st.index with
  | none => none
  | some (eClass, index) =>
    some { p := st.p + 1, eClass := eClass, index := index,
           result := st.result ++ s_SelectRepeats st.p st.eClass }

/-- The `while` loop of the driver, with a bound on the number of
iterations; it gives `none` when the bound is used up. -/
def runLoop (size : Nat) : Nat → LoopState → Option LoopState
  | 0, st => if loopCond size st then none else some st
  | fuel + 1, st =>
    if loopCond size st then
      match loopBody st with
      | none => none
      | some st1 => runLoop size fuel st1
    else some st

/-- The function `g_MaximalPrimitiveTandemRepeats(str)`.  The loop runs at
most `str.size() / 2` times, since `p` starts at one and grows by one. -/
def g_MaximalPrimitiveTandemRepeats (str : List Nat) : Option (List STandemRepeat) :=
  if str.length ≤ 1 then some []
  else
    match s_Initial str with
    | none => none
    | some (eClass, index) =>
      match runLoop str.length (str.length / 2)
          { p := 1, eClass := eClass, index := index, result := [] } with
      | none => none
      | some st => some st.result

/-! ## Concrete inputs -/

/-- The character codes of `"mississippi"`. -/
def mississippi : List Nat := [109, 105, 115, 115, 105, 115, 115, 105, 112, 112, 105]

/-- The character codes of `"na na na na na na na na hey hey hey goodbye"`. -/
def naHeyGoodbye : List Nat :=
  [110, 97, 32, 110, 97, 32, 110, 97, 32, 110, 97, 32, 110, 97, 32, 110, 97, 32,
   110, 97, 32, 110, 97, 32, 104, 101, 121, 32, 104, 101, 121, 32, 104, 101, 121, 32,
   103, 111, 111, 100, 98, 121, 101]

/-- The character codes of `"abab"`. -/
def abab : List Nat := [97, 98, 97, 98]

/-- The character codes of `"aabbcaabbc"`. -/
def aabbcaabbc : List Nat := [97, 97, 98, 98, 99, 97, 97, 98, 98, 99]

/-- The string `"\xff\xff\xff"` on a build where `char` is signed: every
character is `-1` as `xi`, which the table access converts to the index
`2 ^ 64 - 1`. -/
def highBytes : List Nat :=
  [18446744073709551615, 18446744073709551615, 18446744073709551615]

/-! ## Specification vocabulary -/

/-- The substring `S[a .. a + len)`. -/
def substr (S : List Nat) (a len : Nat) : List Nat := (S.drop a).take len

/-- The word `w` written `m` times. -/
def wordPower (w : List Nat) : Nat → List Nat
  | 0 => []
  | m + 1 => w ++ wordPower w m

/-- The triple `t = (s, p, k)` is a tandem repeat occurrence in `S`: `p ≥ 1`,
`k ≥ 2`, `s + p * k ≤ |S|` and `S[j] = S[j + p]` for `s ≤ j < s + p * (k - 1)`. -/
def IsTandem (S : List Nat) (t : STandemRepeat) : Prop :=
  1 ≤ t.repeat_len ∧ 2 ≤ t.num_repeats ∧
  t.start + t.repeat_len * t.num_repeats ≤ S.length ∧
  ∀ j, t.start ≤ j → j < t.start + t.repeat_len * (t.num_repeats - 1) →
    S[j]? = S[j + t.repeat_len]?

/-- The unit `S[s .. s + p)` of `t` is not a shorter word written `m ≥ 2`
times. -/
def IsPrimitive (S : List Nat) (t : STandemRepeat) : Prop :=
  ∀ (w : List Nat) (m : Nat), 2 ≤ m → substr S t.start t.repeat_len ≠ wordPower w m

/-- No further copy of the unit stands directly before or directly after the
repeat `t`. -/
def IsMaximal (S : List Nat) (t : STandemRepeat) : Prop :=
  (t.repeat_len ≤ t.start →
    substr S (t.start - t.repeat_len) t.repeat_len ≠ substr S t.start t.repeat_len) ∧
  (t.start + t.repeat_len * t.num_repeats + t.repeat_len ≤ S.length →
    substr S (t.start + t.repeat_len * t.num_repeats) t.repeat_len ≠
      substr S t.start t.repeat_len)

/-- The triple `t` is a maximal primitive tandem repeat of `S`. -/
def IsMaximalPrimitiveTandemRepeat (S : List Nat) (t : STandemRepeat) : Prop :=
  IsTandem S t ∧ IsPrimitive S t ∧ IsMaximal S t

/-- The arithmetic progression `start, start + p, ..., start + p * (e - 1)`. -/
def progression (start p e : Nat) : List Nat := (List.range e).map (fun i => start + p * i)

/-- The triple `t` is a maximal block of the class `c` for the period `p`: its
`num_repeats ≥ 2` members `start + p * i` are in `c` with no member of `c`
between them, the member of `c` before `start` is not `start - p`, and the
member of `c` after the last one is not `start + p * num_repeats`. -/
def IsRun (c : List Nat) (p : Nat) (t : STandemRepeat) : Prop :=
  t.repeat_len = p ∧ 2 ≤ t.num_repeats ∧
  (∀ i, i < t.num_repeats → t.start + p * i ∈ c) ∧
  (∀ w ∈ c, t.start ≤ w → w ≤ t.start + p * (t.num_repeats - 1) →
    ∃ i, i < t.num_repeats ∧ w = t.start + p * i) ∧
  (∀ w ∈ c, w + p = t.start → ∃ v ∈ c, w < v ∧ v < t.start) ∧
  (∀ w ∈ c, w = t.start + p * t.num_repeats →
    ∃ v ∈ c, t.start + p * (t.num_repeats - 1) < v ∧ v < w)

/-- The positions `x` and `y` start equal words of length `p` in the string
followed by its end marker: a position at or after the end of `S` holds the
marker `none`, which differs from every character. -/
def Eqv (S : List Nat) (p x y : Nat) : Prop := ∀ t, t < p → S[x + t]? = S[y + t]?

/-- The classes and the index at the start of the loop iteration for the
period `p`: the index has one entry per position `0 .. |S|`; every class is
strictly increasing; the classes are pairwise disjoint; the positions held in
classes are those whose word of length `p - 1` occurs at another position as
well; two such positions are in the same class exactly when they start equal
words of length `p`; and the index entry of a member is the position of its
class in the class list. -/
structure Inv (S : List Nat) (p : Nat) (cls : List (List Nat)) (index : List Int) : Prop where
  len : index.length = S.length + 1
  sorted : ∀ c ∈ cls, c.Pairwise (· < ·)
  disjoint : cls.Pairwise List.Disjoint
  mem : ∀ x, (∃ c ∈ cls, x ∈ c) ↔
    x ≤ S.length ∧ ∃ y, y ≤ S.length ∧ y ≠ x ∧ Eqv S (p - 1) x y
  cls_eqv : ∀ c ∈ cls, ∀ x ∈ c, ∀ d ∈ cls, ∀ y ∈ d, (y ∈ c ↔ Eqv S p x y)
  index_eq : ∀ (a : Nat) (c : List Nat), cls[a]? = some c → ∀ x ∈ c, index[x]? = some (a : Int)

/-- The splits one class of at least two members contributes to the result of
`s_Refine`: for every class identifier `k` below `size`, in increasing order,
the members whose successor position has index entry `k`, if there are any. -/
def splitsOf (size : Nat) (index : List Int) (c : List Nat) : List (List Nat) :=
  ((List.range size).map
    (fun (k : Nat) => c.filter (fun x => decide (index[x + 1]? = some (k : Int))))).filter
    (fun split => !split.isEmpty)

/-- The class list `s_Refine` returns, written as a formula. -/
def refineSpec (size : Nat) (index : List Int) : List (List Nat) → List (List Nat)
  | [] => []
  | c :: rest =>
    if c.length ≤ 1 then refineSpec size index rest
    else splitsOf size index c ++ refineSpec size index rest

/-- The state of the collecting loop of `s_Initial` before the iteration for
position `i`, when `m` classes have been created: `pos` maps the codes seen so
far to different class keys below `m`, the map holds the keys `0 .. m - 1`, and
the list at key `k` holds, in increasing order, the positions before `i` whose
code has key `k`. -/
structure InitInv (str : List Nat) (i m : Nat) (st : InitState) : Prop where
  pos_len : st.pos.length = 256
  index_val : st.index = (m : Int)
  keys : st.eClass.map Prod.fst = (List.range m).map (fun (k : Nat) => (k : Int))
  code_lt : ∀ j, j < i → charCode str j < 256
  pos_seen : ∀ c, c < 256 → (st.pos.getD c 0 < 0 ↔ ∀ j, j < i → charCode str j ≠ c)
  pos_lt : ∀ c, c < 256 → st.pos.getD c 0 < (m : Int)
  pos_inj : ∀ c d, c < 256 → d < 256 → 0 ≤ st.pos.getD c 0 →
    st.pos.getD c 0 = st.pos.getD d 0 → c = d
  cls_sorted : ∀ kl ∈ st.eClass, kl.2.Pairwise (· < ·)
  cls_mem : ∀ kl ∈ st.eClass, ∀ j, j ∈ kl.2 ↔ j < i ∧ st.pos.getD (charCode str j) 0 = kl.1

/-! ## The run of the driver, call by call -/

/-- The states of the driver at the start of each iteration of its loop, in
order: at every one of them the driver calls `s_SelectRepeats(p, eClass)` and
then `s_Refine(eClass, index)`.  The list ends with the state at which the
refinement has no defined result, if there is one. -/
def loopStates (size : Nat) : Nat → LoopState → List LoopState
  | 0, _ => []
  | fuel + 1, st =>
    if loopCond size st then
      st :: (match loopBody st with
        | none => []
        | some st1 => loopStates size fuel st1)
    else []

/-- The states at the start of each loop iteration in the run of
`g_MaximalPrimitiveTandemRepeats(str)`. -/
def runStates (str : List Nat) : List LoopState :=
  if str.length ≤ 1 then []
  else
    match s_Initial str with
    | none => []
    | some (eClass, index) =>
      loopStates str.length (str.length / 2)
        { p := 1, eClass := eClass, index := index, result := [] }

/-- The total number of member positions of a class list: the sum of the
class sizes. -/
def totalSize (cls : List (List Nat)) : Nat := (cls.map List.length).sum

/-! ## Maximal blocks of a class -/

/-- The maximal blocks of consecutive elements of a list in which every
element equals its predecessor plus `p`, in order from left to right. -/
def blocks (p : Nat) : List Nat → List (List Nat)
  | [] => []
  | a :: rest =>
    match blocks p rest with
    | [] => [[a]]
    | blk :: more =>
      if blk.head? = some (a + p) then (a :: blk) :: more else [a] :: blk :: more

/-- The triple a block contributes: `(first, p, k)` for a block of `k ≥ 2`
elements, nothing for a shorter block. -/
def blockRepeat (p : Nat) (blk : List Nat) : List STandemRepeat :=
  if 2 ≤ blk.length then [⟨blk.headD 0, p, blk.length⟩] else []

/-- The triples of the maximal blocks of one class, from left to right. -/
def selectSpec (p : Nat) (c : List Nat) : List STandemRepeat :=
  ((blocks p c).map (blockRepeat p)).flatten

/-! ## Theorems -/

/-! ### Run extraction -/

theorem progression_succ (start p e : Nat) :
    progression start p (e + 1) = progression start p e ++ [start + p * e] := by
  simp [progression, List.range_succ]

theorem mem_progression {start p e w : Nat} :
    w ∈ progression start p e ↔ ∃ i, i < e ∧ w = start + p * i := by
  simp only [progression, List.mem_map, List.mem_range]
  constructor
  · rintro ⟨i, hi, rfl⟩; exact ⟨i, hi, rfl⟩
  · rintro ⟨i, hi, rfl⟩; exact ⟨i, hi, rfl⟩

theorem progression_one (start p : Nat) : progression start p 1 = [start] := by
  simp [progression, List.range_succ]

/-- In a strictly increasing list cut as `pre ++ (progression ++ rest)`, the
members up to the progression are at most its last element and those of `rest`
are above it. -/
theorem block_order {p : Nat} {c pre rest : List Nat} {start e : Nat} (he : 1 ≤ e)
    (hc : c.Pairwise (· < ·)) (hsplit : c = pre ++ (progression start p e ++ rest)) :
    (∀ w ∈ pre, w < start) ∧ (∀ w ∈ rest, start + p * (e - 1) < w) ∧
    (∀ w ∈ c, w ∈ pre ∨ w ∈ progression start p e ∨ w ∈ rest) := by
  subst hsplit
  rw [List.pairwise_append, List.pairwise_append] at hc
  obtain ⟨-, ⟨-, -, h2⟩, h3⟩ := hc
  refine ⟨?_, ?_, ?_⟩
  · intro w hw
    have : start ∈ progression start p e ++ rest :=
      List.mem_append_left _ (mem_progression.mpr ⟨0, by omega, by simp⟩)
    exact h3 w hw start this
  · intro w hw
    exact h2 _ (mem_progression.mpr ⟨e - 1, by omega, rfl⟩) w hw
  · intro w hw
    simpa [List.mem_append] using hw

theorem isRun_of_block {p : Nat} (hp : 1 ≤ p) {c pre rest : List Nat} {start e : Nat}
    (he : 2 ≤ e) (hc : c.Pairwise (· < ·))
    (hsplit : c = pre ++ (progression start p e ++ rest))
    (hleft : ∀ w ∈ pre, w + p = start → ∃ v ∈ pre, w < v)
    (hright : ∀ cur rest1, rest = cur :: rest1 → start + p * e ≠ cur) :
    IsRun c p ⟨start, p, e⟩ := by
  obtain ⟨hpre, hrest, hall⟩ := block_order (by omega) hc hsplit
  have hprog : ∀ w, w ∈ progression start p e → start ≤ w ∧ w ≤ start + p * (e - 1) := by
    intro w hw
    obtain ⟨i, hi, rfl⟩ := mem_progression.mp hw
    have : p * i ≤ p * (e - 1) := Nat.mul_le_mul_left p (by omega)
    omega
  have hin : ∀ w, w ∈ progression start p e → w ∈ c := by
    intro w hw; rw [hsplit]; simp [hw]
  have hinpre : ∀ w, w ∈ pre → w ∈ c := by
    intro w hw; rw [hsplit]; simp [hw]
  have hinrest : ∀ w, w ∈ rest → w ∈ c := by
    intro w hw; rw [hsplit]; simp [hw]
  have hpe : p * e = p * (e - 1) + p := by
    have : e = (e - 1) + 1 := by omega
    conv_lhs => rw [this, Nat.mul_succ]
  refine ⟨rfl, he, ?_, ?_, ?_, ?_⟩
  · intro i hi
    exact hin _ (mem_progression.mpr ⟨i, hi, rfl⟩)
  · intro w hw h1 h2
    rcases hall w hw with h | h | h
    · have := hpre w h; simp only at h1; omega
    · exact mem_progression.mp h
    · have := hrest w h; simp only at h2; omega
  · intro w hw h1
    simp only at h1
    rcases hall w hw with h | h | h
    · obtain ⟨v, hv, hwv⟩ := hleft w h h1
      exact ⟨v, hinpre v hv, hwv, hpre v hv⟩
    · have := hprog w h; omega
    · have := hrest w h; omega
  · intro w hw h1
    simp only at h1
    rcases hall w hw with h | h | h
    · have := hpre w h; omega
    · have := hprog w h; omega
    · cases hr : rest with
      | nil => rw [hr] at h; cases h
      | cons cur rest1 =>
        have hne := hright cur rest1 hr
        have hcur : cur ∈ rest := by rw [hr]; simp
        refine ⟨cur, hinrest cur hcur, hrest cur hcur, ?_⟩
        rw [hr] at h
        rcases List.mem_cons.mp h with h | h
        · omega
        · have hc2 : (cur :: rest1).Pairwise (· < ·) := by
            rw [hsplit, hr] at hc
            rw [List.pairwise_append, List.pairwise_append] at hc
            exact hc.2.1.2.1
          exact (List.pairwise_cons.mp hc2).1 w h

theorem selectProbe_sound {p : Nat} (hp : 1 ≤ p) {c : List Nat} (hc : c.Pairwise (· < ·)) :
    ∀ (rest pre : List Nat) (start e : Nat), 1 ≤ e →
      c = pre ++ (progression start p e ++ rest) →
      (∀ w ∈ pre, w + p = start → ∃ v ∈ pre, w < v) →
      ∀ t ∈ selectProbe p start e rest, IsRun c p t := by
  intro rest
  induction rest with
  | nil =>
    intro pre start e he hsplit hleft t ht
    simp only [selectProbe] at ht
    split at ht
    · rw [List.mem_singleton] at ht
      subst ht
      exact isRun_of_block hp (by omega) hc hsplit hleft (by intro _ _ h; cases h)
    · cases ht
  | cons cur rest1 ih =>
    intro pre start e he hsplit hleft t ht
    simp only [selectProbe] at ht
    split at ht
    · rename_i hne
      rcases List.mem_append.mp ht with h | h
      · split at h
        · rw [List.mem_singleton] at h
          subst h
          refine isRun_of_block hp (by omega) hc hsplit hleft ?_
          intro cur2 rest2 heq
          cases heq
          exact hne
        · cases h
      · obtain ⟨hpre, -, -⟩ := block_order he hc hsplit
        refine ih (pre ++ progression start p e) cur 1 (le_refl 1) ?_ ?_ t h
        · rw [hsplit, progression_one]; simp
        · intro w hw hwp
          have hlast : start + p * (e - 1) ∈ pre ++ progression start p e :=
            List.mem_append_right _ (mem_progression.mpr ⟨e - 1, by omega, rfl⟩)
          refine ⟨_, hlast, ?_⟩
          have hpe : p * e = p * (e - 1) + p := by
            have : e = (e - 1) + 1 := by omega
            conv_lhs => rw [this, Nat.mul_succ]
          rcases List.mem_append.mp hw with h1 | h1
          · have := hpre w h1; omega
          · obtain ⟨i, hi, rfl⟩ := mem_progression.mp h1
            have : p * i ≤ p * (e - 1) := Nat.mul_le_mul_left p (by omega)
            omega
    · rename_i heq
      have heq : start + p * e = cur := by
        by_contra h; exact heq h
      refine ih pre start (e + 1) (by omega) ?_ hleft t ht
      rw [hsplit, progression_succ, heq]; simp

theorem selectProbe_complete {p : Nat} (hp : 1 ≤ p) {c : List Nat}
    (hc : c.Pairwise (· < ·)) {t : STandemRepeat} (ht : IsRun c p t) :
    ∀ (rest pre : List Nat) (start e : Nat), 1 ≤ e →
      c = pre ++ (progression start p e ++ rest) →
      (t.start ∈ rest ∨ (t.start = start ∧ e ≤ t.num_repeats)) →
      t ∈ selectProbe p start e rest := by
  obtain ⟨hlen, hk, hmem, hbetween, hl, hr⟩ := ht
  have hpk : ∀ e, 1 ≤ e → p * e = p * (e - 1) + p := by
    intro e he
    have : e = (e - 1) + 1 := by omega
    conv_lhs => rw [this, Nat.mul_succ]
  have hprog : ∀ start e w, 1 ≤ e → w ∈ progression start p e →
      start ≤ w ∧ w ≤ start + p * (e - 1) := by
    intro start e w he hw
    obtain ⟨i, hi, rfl⟩ := mem_progression.mp hw
    have : p * i ≤ p * (e - 1) := Nat.mul_le_mul_left p (by omega)
    omega
  intro rest
  induction rest with
  | nil =>
    intro pre start e he hsplit hpos
    rcases hpos with h | ⟨hs, hek⟩
    · cases h
    · obtain ⟨hpre, -, hall⟩ := block_order he hc hsplit
      have hee : e = t.num_repeats := by
        by_contra hne
        have hlt : e < t.num_repeats := by omega
        have h1 := hmem e hlt
        have h2 := hpk e he
        rcases hall _ h1 with h | h | h
        · have := hpre _ h; omega
        · have := hprog _ _ _ he h; omega
        · cases h
      simp only [selectProbe]
      rw [if_pos (by omega)]
      rw [List.mem_singleton]
      cases t
      simp only at hs hee hlen
      subst hs hee hlen
      rfl
  | cons cur rest1 ih =>
    intro pre start e he hsplit hpos
    obtain ⟨hpre, hrest, hall⟩ := block_order he hc hsplit
    have hcurc : cur ∈ c := by rw [hsplit]; simp
    have hcur : start + p * (e - 1) < cur := hrest cur (by simp)
    have hrest1 : ∀ w ∈ rest1, cur < w := by
      have hc2 : (cur :: rest1).Pairwise (· < ·) := by
        rw [hsplit] at hc
        rw [List.pairwise_append, List.pairwise_append] at hc
        exact hc.2.1.2.1
      exact (List.pairwise_cons.mp hc2).1
    -- no member of `c` lies strictly between the last member of the block and `cur`
    have hadj : ∀ v ∈ c, start + p * (e - 1) < v → v < cur → False := by
      intro v hv h1 h2
      rcases hall v hv with h | h | h
      · have := hpre v h; omega
      · have := hprog _ _ _ he h; omega
      · rcases List.mem_cons.mp h with h | h
        · omega
        · have := hrest1 v h; omega
    have hlastc : start + p * (e - 1) ∈ c := by
      rw [hsplit]
      exact List.mem_append_right _
        (List.mem_append_left _ (mem_progression.mpr ⟨e - 1, by omega, rfl⟩))
    have h2 := hpk e he
    simp only [selectProbe]
    rcases hpos with h | ⟨hs, hek⟩
    · -- the block of `t` starts later
      split
      · refine List.mem_append_right _ (ih (pre ++ progression start p e) cur 1 (le_refl 1) ?_ ?_)
        · rw [hsplit, progression_one]; simp
        · rcases List.mem_cons.mp h with h | h
          · exact Or.inr ⟨h, by omega⟩
          · exact Or.inl h
      · rename_i heq
        have heq : start + p * e = cur := by
          by_contra h; exact heq h
        refine ih pre start (e + 1) (by omega) ?_ ?_
        · rw [hsplit, progression_succ, heq]; simp
        · rcases List.mem_cons.mp h with h | h
          · exfalso
            obtain ⟨v, hv, hv1, hv2⟩ := hl _ hlastc (by omega)
            exact hadj v hv hv1 (by omega)
          · exact Or.inl h
    · -- the current block is the block of `t`
      by_cases hlt : e < t.num_repeats
      · have h1 := hmem e hlt
        have hcure : cur = start + p * e := by
          have hle : cur ≤ start + p * e := by
            rcases hall _ h1 with h | h | h
            · have := hpre _ h; omega
            · have := hprog _ _ _ he h; omega
            · rcases List.mem_cons.mp h with h | h
              · omega
              · have := hrest1 _ h; omega
          have hk1 := hpk t.num_repeats (by omega)
          have hmono : p * e ≤ p * (t.num_repeats - 1) := Nat.mul_le_mul_left p (by omega)
          obtain ⟨i, hi, hcu⟩ := hbetween cur hcurc (by omega) (by omega)
          have hie : e ≤ i := by
            by_contra hie
            have : p * i ≤ p * (e - 1) := Nat.mul_le_mul_left p (by omega)
            omega
          have : p * e ≤ p * i := Nat.mul_le_mul_left p hie
          omega
        rw [if_neg (by rw [hcure]; simp)]
        refine ih pre start (e + 1) (by omega) ?_ (Or.inr ⟨hs, by omega⟩)
        rw [hsplit, progression_succ, hcure]; simp
      · have hee : e = t.num_repeats := by omega
        have hne : start + p * e ≠ cur := by
          intro heq
          obtain ⟨v, hv, hv1, hv2⟩ := hr cur hcurc (by rw [← heq, hs, hee])
          exact hadj v hv (by rw [← hs, hee]; exact hv1) hv2
        rw [if_pos hne, if_pos (by omega)]
        refine List.mem_append_left _ ?_
        rw [List.mem_singleton]
        cases t
        simp only at hs hee hlen
        subst hs hee hlen
        rfl

theorem mem_selectClass {p : Nat} (hp : 1 ≤ p) {c : List Nat} (hc : c.Pairwise (· < ·))
    (t : STandemRepeat) : t ∈ selectClass p c ↔ IsRun c p t := by
  unfold selectClass
  split
  · rename_i hlen
    constructor
    · intro h; cases h
    · intro h
      exfalso
      obtain ⟨-, hk, hmem, -⟩ := h
      have h0 := hmem 0 (by omega)
      have h1 := hmem 1 (by omega)
      match c, hlen, h0, h1 with
      | [], _, h0, _ => cases h0
      | [a], _, h0, h1 =>
        rw [List.mem_singleton] at h0 h1
        omega
  · match c, hc with
    | [], _ => rename_i h; simp at h
    | start :: rest, hc =>
      simp only
      constructor
      · intro h
        exact selectProbe_sound hp hc rest [] start 1 (le_refl 1)
          (by rw [progression_one]; rfl) (by intro w hw; cases hw) t h
      · intro h
        refine selectProbe_complete hp hc h rest [] start 1 (le_refl 1)
          (by rw [progression_one]; rfl) ?_
        have h0 := h.2.2.1 0 (by have := h.2.1; omega)
        simp only [Nat.mul_zero, Nat.add_zero] at h0
        rcases List.mem_cons.mp h0 with h0 | h0
        · exact Or.inr ⟨h0, by have := h.2.1; omega⟩
        · exact Or.inl h0

theorem mem_s_SelectRepeats_iff (p : Nat) (cls : List (List Nat)) (t : STandemRepeat) :
    t ∈ s_SelectRepeats p cls ↔ ∃ c ∈ cls, t ∈ selectClass p c := by
  induction cls with
  | nil => simp [s_SelectRepeats]
  | cons c rest ih => simp [s_SelectRepeats, ih]

theorem mem_s_SelectRepeats {p : Nat} (hp : 1 ≤ p) {cls : List (List Nat)}
    (hc : ∀ c ∈ cls, c.Pairwise (· < ·)) (t : STandemRepeat) :
    t ∈ s_SelectRepeats p cls ↔ ∃ c ∈ cls, IsRun c p t := by
  rw [mem_s_SelectRepeats_iff]
  constructor
  · rintro ⟨c, hcm, h⟩
    exact ⟨c, hcm, (mem_selectClass hp (hc c hcm) t).mp h⟩
  · rintro ⟨c, hcm, h⟩
    exact ⟨c, hcm, (mem_selectClass hp (hc c hcm) t).mpr h⟩

/-! ### The index building loop -/

theorem assignClass_length (c : Int) : ∀ (items : List Nat) (index : List Int),
    (assignClass c items index).length = index.length := by
  intro items
  induction items with
  | nil => intro index; rfl
  | cons item rest ih => intro index; simp [assignClass, ih]

theorem assignClass_getElem? (c : Int) : ∀ (items : List Nat) (index : List Int) (x : Nat),
    (assignClass c items index)[x]? =
      if x ∈ items ∧ x < index.length then some c else index[x]? := by
  intro items
  induction items with
  | nil => intro index x; simp [assignClass]
  | cons item rest ih =>
    intro index x
    simp only [assignClass, ih, List.length_set, List.mem_cons]
    by_cases hx : x < index.length
    · by_cases h1 : x ∈ rest
      · simp [h1, hx]
      · by_cases h2 : x = item
        · subst h2
          simp [h1, hx, List.getElem?_set]
        · have h3 : item ≠ x := fun h => h2 h.symm
          simp [h1, h2, hx, List.getElem?_set, h3]
    · have h4 : index[x]? = none := by
        rw [List.getElem?_eq_none_iff]; omega
      have h5 : (index.set item c)[x]? = none := by
        rw [List.getElem?_eq_none_iff, List.length_set]; omega
      simp [hx, h4, h5]

theorem assignIndex_length : ∀ (cls : List (List Nat)) (base : Nat) (index : List Int),
    (assignIndex cls base index).length = index.length := by
  intro cls
  induction cls with
  | nil => intro base index; rfl
  | cons c rest ih => intro base index; simp [assignIndex, ih, assignClass_length]

theorem assignIndex_of_not_mem : ∀ (cls : List (List Nat)) (base : Nat) (index : List Int)
    (x : Nat), (∀ c ∈ cls, x ∉ c) → (assignIndex cls base index)[x]? = index[x]? := by
  intro cls
  induction cls with
  | nil => intro base index x _; rfl
  | cons c rest ih =>
    intro base index x h
    simp only [assignIndex]
    rw [ih _ _ _ (fun d hd => h d (List.mem_cons_of_mem _ hd)), assignClass_getElem?]
    have : x ∉ c := h c (List.mem_cons_self _ _)
    simp [this]

theorem assignIndex_of_mem : ∀ (cls : List (List Nat)) (base : Nat) (index : List Int),
    cls.Pairwise List.Disjoint →
    ∀ (a : Nat) (c : List Nat), cls[a]? = some c → ∀ x ∈ c, x < index.length →
      (assignIndex cls base index)[x]? = some ((base + a : Nat) : Int) := by
  intro cls
  induction cls with
  | nil => intro base index _ a c h; simp at h
  | cons c0 rest ih =>
    intro base index hd a c hac x hx hlen
    rw [List.pairwise_cons] at hd
    simp only [assignIndex]
    cases a with
    | zero =>
      simp only [List.getElem?_cons_zero, Option.some.injEq] at hac
      subst hac
      rw [assignIndex_of_not_mem, assignClass_getElem?]
      · simp [hx, hlen]
      · intro d hdm hxd
        exact hd.1 d hdm hx hxd
    | succ a =>
      simp only [List.getElem?_cons_succ] at hac
      rw [ih (base + 1) _ hd.2 a c hac x hx (by rw [assignClass_length]; exact hlen)]
      congr 2
      omega

/-! ### The splitting loop of `s_Refine` -/

theorem refineSplit_spec (index : List Int) : ∀ (c : List Nat) (splits : List (List Nat)),
    (∀ x ∈ c, ∃ k : Nat, k < splits.length ∧ index[x + 1]? = some (k : Int)) →
    ∃ out, refineSplit index c splits = some out ∧ out.length = splits.length ∧
      ∀ k, k < splits.length →
        out.getD k [] = splits.getD k [] ++
          c.filter (fun x => decide (index[x + 1]? = some (k : Int))) := by
  intro c
  induction c with
  | nil =>
    intro splits _
    exact ⟨splits, rfl, rfl, by intro k _; simp⟩
  | cons x rest ih =>
    intro splits h
    obtain ⟨j, hj, hx⟩ := h x (List.mem_cons_self _ _)
    have hrest : ∀ y ∈ rest, ∃ k : Nat,
        k < (splits.set j (splits.getD j [] ++ [x])).length ∧
          index[y + 1]? = some (k : Int) := by
      intro y hy
      obtain ⟨k, hk, hy1⟩ := h y (List.mem_cons_of_mem _ hy)
      exact ⟨k, by rw [List.length_set]; exact hk, hy1⟩
    obtain ⟨out, hout, hlen, hget⟩ := ih _ hrest
    refine ⟨out, ?_, ?_, ?_⟩
    · simp only [refineSplit, hx]
      have : (0 : Int) ≤ (j : Int) ∧ (j : Int).toNat < splits.length := by
        simp [hj]
      rw [if_pos this]
      simpa using hout
    · rw [hlen, List.length_set]
    · intro k hk
      rw [hget k (by rw [List.length_set]; exact hk)]
      by_cases hkj : k = j
      · subst hkj
        simp [List.getD_eq_getElem?_getD, List.getElem?_set, hk, hx]
      · have hjk : j ≠ k := fun h => hkj h.symm
        have : ¬ (index[x + 1]? = some (k : Int)) := by
          rw [hx]; intro h; injection h with h; exact hjk (by exact_mod_cast h)
        simp [List.getD_eq_getElem?_getD, List.getElem?_set, hjk, this]

theorem refineSplit_replicate (index : List Int) (size : Nat) (c : List Nat)
    (h : ∀ x ∈ c, ∃ k : Nat, k < size ∧ index[x + 1]? = some (k : Int)) :
    refineSplit index c (List.replicate size []) =
      some ((List.range size).map
        (fun (k : Nat) => c.filter (fun x => decide (index[x + 1]? = some (k : Int))))) := by
  obtain ⟨out, hout, hlen, hget⟩ := refineSplit_spec index c (List.replicate size [])
    (by simpa using h)
  rw [hout]
  congr 1
  apply List.ext_getElem?
  intro k
  by_cases hk : k < size
  · have h1 := hget k (by simpa using hk)
    have h2 : k < out.length := by rw [hlen]; simpa using hk
    have h3 : (List.replicate size ([] : List Nat)).getD k [] = [] := by
      rw [List.getD_eq_getElem?_getD]
      cases h : (List.replicate size ([] : List Nat))[k]? with
      | none => rfl
      | some v =>
        have := List.getElem?_mem h
        rw [List.mem_replicate] at this
        simp [this.2]
    rw [List.getD_eq_getElem?_getD, List.getElem?_eq_getElem h2, h3] at h1
    simp only [Option.getD_some, List.nil_append] at h1
    rw [List.getElem?_eq_getElem h2, h1, List.getElem?_map, List.getElem?_range hk]
    rfl
  · have h1 : out[k]? = none := by
      rw [List.getElem?_eq_none_iff, hlen, List.length_replicate]; omega
    rw [h1]
    symm
    rw [List.getElem?_eq_none_iff, List.length_map, List.length_range]; omega

theorem refineClasses_eq (size : Nat) (index : List Int) : ∀ (l : List (List Nat)),
    (∀ c ∈ l, 2 ≤ c.length →
      ∀ x ∈ c, ∃ k : Nat, k < size ∧ index[x + 1]? = some (k : Int)) →
    refineClasses size index l = some (refineSpec size index l) := by
  intro l
  induction l with
  | nil => intro _; rfl
  | cons c rest ih =>
    intro h
    have hrest := ih (fun d hd => h d (List.mem_cons_of_mem _ hd))
    simp only [refineClasses, refineSpec]
    split
    · exact hrest
    · rename_i hlen
      rw [refineSplit_replicate index size c
        (h c (List.mem_cons_self _ _) (by omega)), hrest]
      rfl

theorem s_Refine_eq (e : List (List Nat)) (index : List Int)
    (h : ∀ c ∈ e, 2 ≤ c.length →
      ∀ x ∈ c, ∃ k : Nat, k < e.length ∧ index[x + 1]? = some (k : Int)) :
    s_Refine e index =
      some (refineSpec e.length index e,
        assignIndex (refineSpec e.length index e) 0 index) := by
  simp [s_Refine, refineClasses_eq e.length index e h]

/-! ### Equal words at two positions -/

theorem Eqv.refl (S : List Nat) (p x : Nat) : Eqv S p x x := fun _ _ => rfl

theorem Eqv.symm {S : List Nat} {p x y : Nat} (h : Eqv S p x y) : Eqv S p y x :=
  fun t ht => (h t ht).symm

theorem Eqv.trans {S : List Nat} {p x y z : Nat} (h1 : Eqv S p x y) (h2 : Eqv S p y z) :
    Eqv S p x z := fun t ht => (h1 t ht).trans (h2 t ht)

theorem Eqv.mono {S : List Nat} {p q x y : Nat} (hq : q ≤ p) (h : Eqv S p x y) :
    Eqv S q x y := fun t ht => h t (by omega)

theorem Eqv.shift {S : List Nat} {p x y : Nat} (h : Eqv S p x y) :
    Eqv S (p - 1) (x + 1) (y + 1) := by
  intro t ht
  have := h (t + 1) (by omega)
  rw [show x + 1 + t = x + (t + 1) by omega, show y + 1 + t = y + (t + 1) by omega]
  exact this

theorem eqv_succ_iff {S : List Nat} {p x y : Nat} (hp : 1 ≤ p) :
    Eqv S (p + 1) x y ↔ Eqv S p x y ∧ Eqv S p (x + 1) (y + 1) := by
  constructor
  · intro h
    exact ⟨h.mono (by omega), by simpa using h.shift⟩
  · rintro ⟨h1, h2⟩ t ht
    by_cases h0 : t = 0
    · subst h0; exact h1 0 (by omega)
    · have := h2 (t - 1) (by omega)
      rw [show x + 1 + (t - 1) = x + t by omega, show y + 1 + (t - 1) = y + t by omega] at this
      exact this

theorem Eqv.inrange_lt {S : List Nat} {p x y : Nat} (h : Eqv S p x y) (hxy : x < y)
    (hy : y ≤ S.length) : y + p ≤ S.length := by
  by_contra hcon
  have ht : S.length - y < p := by omega
  have h1 := h (S.length - y) ht
  have h2 : S[y + (S.length - y)]? = none := by
    rw [List.getElem?_eq_none_iff]; omega
  have h3 : x + (S.length - y) < S.length := by omega
  rw [h2, List.getElem?_eq_getElem h3] at h1
  cases h1

/-- Two different positions that start equal words of length `p` both have
their word inside the string. -/
theorem Eqv.inrange {S : List Nat} {p x y : Nat} (h : Eqv S p x y) (hxy : x ≠ y)
    (hx : x ≤ S.length) (hy : y ≤ S.length) : x + p ≤ S.length ∧ y + p ≤ S.length := by
  rcases Nat.lt_or_gt_of_ne hxy with hlt | hlt
  · have := h.inrange_lt hlt hy
    omega
  · have := h.symm.inrange_lt hlt hx
    omega

/-! ### The class list returned by `s_Refine` -/

theorem mem_splitsOf {size : Nat} {index : List Int} {c d : List Nat} :
    d ∈ splitsOf size index c ↔
      d ≠ [] ∧ ∃ k : Nat, k < size ∧
        d = c.filter (fun x => decide (index[x + 1]? = some (k : Int))) := by
  simp only [splitsOf, List.mem_filter, List.mem_map, List.mem_range]
  constructor
  · rintro ⟨⟨k, hk, rfl⟩, hne⟩
    refine ⟨?_, k, hk, rfl⟩
    intro h
    rw [h] at hne
    simp at hne
  · rintro ⟨hne, k, hk, rfl⟩
    refine ⟨⟨k, hk, rfl⟩, ?_⟩
    cases h : List.filter (fun x => decide (index[x + 1]? = some (k : Int))) c with
    | nil => exact absurd h hne
    | cons a l => rfl

theorem mem_refineSpec {size : Nat} {index : List Int} : ∀ {l : List (List Nat)} {d : List Nat},
    d ∈ refineSpec size index l ↔ ∃ c ∈ l, 2 ≤ c.length ∧ d ∈ splitsOf size index c := by
  intro l
  induction l with
  | nil => intro d; simp [refineSpec]
  | cons c rest ih =>
    intro d
    simp only [refineSpec]
    split
    · rename_i hlen
      rw [ih]
      constructor
      · rintro ⟨c1, hc1, h⟩
        exact ⟨c1, List.mem_cons_of_mem _ hc1, h⟩
      · rintro ⟨c1, hc1, h2, h⟩
        rcases List.mem_cons.mp hc1 with h1 | h1
        · subst h1; omega
        · exact ⟨c1, h1, h2, h⟩
    · rename_i hlen
      rw [List.mem_append, ih]
      constructor
      · rintro (h | ⟨c1, hc1, h⟩)
        · exact ⟨c, List.mem_cons_self _ _, by omega, h⟩
        · exact ⟨c1, List.mem_cons_of_mem _ hc1, h⟩
      · rintro ⟨c1, hc1, h2, h⟩
        rcases List.mem_cons.mp hc1 with h1 | h1
        · subst h1; exact Or.inl h
        · exact Or.inr ⟨c1, h1, h2, h⟩

theorem splitsOf_disjoint (size : Nat) (index : List Int) (c : List Nat) :
    (splitsOf size index c).Pairwise List.Disjoint := by
  unfold splitsOf
  apply List.Pairwise.filter
  rw [List.pairwise_map]
  refine List.Pairwise.imp ?_ (List.pairwise_lt_range size)
  intro a b hab x hxa hxb
  rw [List.mem_filter] at hxa hxb
  have h1 := of_decide_eq_true hxa.2
  have h2 := of_decide_eq_true hxb.2
  rw [h1] at h2
  injection h2 with h2
  have : a = b := by exact_mod_cast h2
  omega

theorem refineSpec_disjoint (size : Nat) (index : List Int) : ∀ (l : List (List Nat)),
    l.Pairwise List.Disjoint → (refineSpec size index l).Pairwise List.Disjoint := by
  intro l
  induction l with
  | nil => intro _; exact List.Pairwise.nil
  | cons c rest ih =>
    intro h
    rw [List.pairwise_cons] at h
    simp only [refineSpec]
    split
    · exact ih h.2
    · rw [List.pairwise_append]
      refine ⟨splitsOf_disjoint size index c, ih h.2, ?_⟩
      intro a ha b hb x hxa hxb
      obtain ⟨-, k, -, rfl⟩ := mem_splitsOf.mp ha
      obtain ⟨c1, hc1, -, hb1⟩ := mem_refineSpec.mp hb
      obtain ⟨-, k1, -, rfl⟩ := mem_splitsOf.mp hb1
      exact h.1 c1 hc1 (List.mem_filter.mp hxa).1 (List.mem_filter.mp hxb).1

theorem exists_ne_of_two {c : List Nat} (hc : c.Pairwise (· < ·)) (hlen : 2 ≤ c.length)
    {x : Nat} (_hx : x ∈ c) : ∃ y ∈ c, y ≠ x := by
  match c, hc, hlen with
  | a :: b :: rest, hc, _ =>
    have hab : a < b := (List.pairwise_cons.mp hc).1 b (List.mem_cons_self _ _)
    by_cases h : x = a
    · exact ⟨b, by simp, by omega⟩
    · exact ⟨a, by simp, fun h1 => h h1.symm⟩

theorem two_le_length_of_ne {c : List Nat} {x y : Nat} (hx : x ∈ c) (hy : y ∈ c)
    (hxy : y ≠ x) : 2 ≤ c.length := by
  match c, hx, hy with
  | [], hx, _ => cases hx
  | [a], hx, hy =>
    rw [List.mem_singleton] at hx hy
    omega
  | _ :: _ :: _, _, _ => simp

/-! ### One refinement step keeps the invariant -/

theorem Inv.le_length {S : List Nat} {p : Nat} {cls : List (List Nat)} {index : List Int}
    (h : Inv S p cls index) {c : List Nat} (hc : c ∈ cls) {x : Nat} (hx : x ∈ c) :
    x ≤ S.length := ((h.mem x).mp ⟨c, hc, hx⟩).1

theorem Inv.eqv_of_mem {S : List Nat} {p : Nat} {cls : List (List Nat)} {index : List Int}
    (h : Inv S p cls index) {c : List Nat} (hc : c ∈ cls) {x y : Nat} (hx : x ∈ c)
    (hy : y ∈ c) : Eqv S p x y := (h.cls_eqv c hc x hx c hc y hy).mp hy

theorem Inv.exists_class {S : List Nat} {p : Nat} {cls : List (List Nat)} {index : List Int}
    (h : Inv S p cls index) {x y : Nat} (hx : x ≤ S.length) (hy : y ≤ S.length)
    (hxy : x ≠ y) (he : Eqv S (p - 1) x y) :
    ∃ (k : Nat) (d : List Nat), k < cls.length ∧ cls[k]? = some d ∧ d ∈ cls ∧ x ∈ d ∧
      index[x]? = some (k : Int) := by
  obtain ⟨d, hd, hxd⟩ := (h.mem x).mpr ⟨hx, y, hy, fun e => hxy e.symm, he⟩
  obtain ⟨k, hk⟩ := List.getElem?_of_mem hd
  have hklen : k < cls.length := by
    by_contra hcon
    rw [List.getElem?_eq_none_iff.mpr (by omega)] at hk
    cases hk
  exact ⟨k, d, hklen, hk, hd, hxd, h.index_eq k d hk x hxd⟩

/-- The read `index[x + 1]` of `s_Refine` is in range and gives the position in
the class list of the class of `x + 1`. -/
theorem Inv.next_class {S : List Nat} {p : Nat} {cls : List (List Nat)} {index : List Int}
    (h : Inv S p cls index) (hp : 1 ≤ p) {c : List Nat} (hc : c ∈ cls)
    (hlen : 2 ≤ c.length) {x : Nat} (hx : x ∈ c) :
    x + 1 ≤ S.length ∧ ∃ (k : Nat) (d : List Nat), k < cls.length ∧ cls[k]? = some d ∧
      d ∈ cls ∧ x + 1 ∈ d ∧ index[x + 1]? = some (k : Int) := by
  obtain ⟨y, hy, hyx⟩ := exists_ne_of_two (h.sorted c hc) hlen hx
  have he := h.eqv_of_mem hc hx hy
  have hxl := h.le_length hc hx
  have hyl := h.le_length hc hy
  have hr := he.inrange (fun e => hyx e.symm) hxl hyl
  have hx1 : x + 1 ≤ S.length := by omega
  exact ⟨hx1, h.exists_class hx1 (by omega) (by omega) he.shift⟩

theorem Inv.index_eq_iff {S : List Nat} {p : Nat} {cls : List (List Nat)} {index : List Int}
    (h : Inv S p cls index) {k : Nat} {d d1 : List Nat} {x y : Nat}
    (hk : cls[k]? = some d) (hd : d ∈ cls) (hx : x ∈ d) (hd1 : d1 ∈ cls) (hy : y ∈ d1) :
    index[y]? = some (k : Int) ↔ Eqv S p x y := by
  constructor
  · intro hi
    obtain ⟨k1, hk1⟩ := List.getElem?_of_mem hd1
    have h2 := h.index_eq k1 d1 hk1 y hy
    rw [hi] at h2
    injection h2 with h2
    have hkk : k = k1 := by exact_mod_cast h2
    subst hkk
    rw [hk] at hk1
    injection hk1 with hk1
    subst hk1
    exact h.eqv_of_mem hd hx hy
  · intro he
    have hyd : y ∈ d := (h.cls_eqv d hd x hx d1 hd1 y hy).mpr he
    exact h.index_eq k d hk y hyd

theorem Inv.refine {S : List Nat} {p : Nat} {cls : List (List Nat)} {index : List Int}
    (h : Inv S p cls index) (hp : 1 ≤ p) :
    s_Refine cls index =
      some (refineSpec cls.length index cls,
        assignIndex (refineSpec cls.length index cls) 0 index) ∧
    Inv S (p + 1) (refineSpec cls.length index cls)
      (assignIndex (refineSpec cls.length index cls) 0 index) := by
  have hbound : ∀ c ∈ cls, 2 ≤ c.length →
      ∀ x ∈ c, ∃ k : Nat, k < cls.length ∧ index[x + 1]? = some (k : Int) := by
    intro c hc hlen x hx
    obtain ⟨-, k, d, hk, -, -, -, hi⟩ := h.next_class hp hc hlen hx
    exact ⟨k, hk, hi⟩
  refine ⟨s_Refine_eq cls index hbound, ?_⟩
  -- every new class is a split of an old class with at least two members
  have hsplit : ∀ d ∈ refineSpec cls.length index cls, ∃ c ∈ cls, 2 ≤ c.length ∧
      ∃ k : Nat, k < cls.length ∧
        d = c.filter (fun x => decide (index[x + 1]? = some (k : Int))) := by
    intro d hd
    obtain ⟨c, hc, hlen, hd1⟩ := mem_refineSpec.mp hd
    obtain ⟨-, k, hk, hd2⟩ := mem_splitsOf.mp hd1
    exact ⟨c, hc, hlen, k, hk, hd2⟩
  have hmk : ∀ c ∈ cls, 2 ≤ c.length → ∀ x ∈ c, ∀ k : Nat, index[x + 1]? = some (k : Int) →
      k < cls.length →
      c.filter (fun x => decide (index[x + 1]? = some (k : Int))) ∈
        refineSpec cls.length index cls := by
    intro c hc hlen x hx k hi hk
    refine mem_refineSpec.mpr ⟨c, hc, hlen, mem_splitsOf.mpr ⟨?_, k, hk, rfl⟩⟩
    intro hnil
    have : x ∈ c.filter (fun x => decide (index[x + 1]? = some (k : Int))) :=
      List.mem_filter.mpr ⟨hx, decide_eq_true hi⟩
    rw [hnil] at this
    cases this
  constructor
  · rw [assignIndex_length]; exact h.len
  · intro d hd
    obtain ⟨c, hc, -, k, -, rfl⟩ := hsplit d hd
    exact (h.sorted c hc).filter _
  · exact refineSpec_disjoint _ _ _ h.disjoint
  · intro x
    simp only [Nat.add_sub_cancel]
    constructor
    · rintro ⟨d, hd, hxd⟩
      obtain ⟨c, hc, hlen, k, -, rfl⟩ := hsplit d hd
      have hx := (List.mem_filter.mp hxd).1
      obtain ⟨y, hy, hyx⟩ := exists_ne_of_two (h.sorted c hc) hlen hx
      exact ⟨h.le_length hc hx, y, h.le_length hc hy, hyx, h.eqv_of_mem hc hx hy⟩
    · rintro ⟨hx, y, hy, hyx, he⟩
      obtain ⟨-, c, -, -, hc, hxc, -⟩ :=
        h.exists_class hx hy (fun e => hyx e.symm) (he.mono (by omega))
      obtain ⟨-, c1, -, -, hc1, hyc1, -⟩ :=
        h.exists_class hy hx hyx (he.symm.mono (by omega))
      have hyc : y ∈ c := (h.cls_eqv c hc x hxc c1 hc1 y hyc1).mpr he
      have hlen := two_le_length_of_ne hxc hyc hyx
      obtain ⟨-, k, -, hk, -, -, -, hi⟩ := h.next_class hp hc hlen hxc
      exact ⟨_, hmk c hc hlen x hxc k hi hk, List.mem_filter.mpr ⟨hxc, decide_eq_true hi⟩⟩
  · intro d hd x hxd d1 hd1 y hyd1
    obtain ⟨c, hc, hlen, k, -, rfl⟩ := hsplit d hd
    obtain ⟨c1, hc1, hlen1, k1, -, rfl⟩ := hsplit d1 hd1
    rw [List.mem_filter] at hxd hyd1
    obtain ⟨hxc, hxi⟩ := hxd
    obtain ⟨hyc1, -⟩ := hyd1
    have hxi := of_decide_eq_true hxi
    obtain ⟨-, kx, dx, -, hkx, hdx, hx1, hix⟩ := h.next_class hp hc hlen hxc
    obtain ⟨-, ky, dy, -, -, hdy, hy1, -⟩ := h.next_class hp hc1 hlen1 hyc1
    rw [hix] at hxi
    injection hxi with hxi
    have hkk : kx = k := by exact_mod_cast hxi
    subst hkk
    rw [List.mem_filter, eqv_succ_iff hp, h.cls_eqv c hc x hxc c1 hc1 y hyc1,
      ← h.index_eq_iff hkx hdx hx1 hdy hy1]
    simp
  · intro a c hac x hx
    have hcm := List.getElem?_mem hac
    obtain ⟨c0, hc0, -, k, -, rfl⟩ := hsplit c hcm
    have hxl := h.le_length hc0 (List.mem_filter.mp hx).1
    have := assignIndex_of_mem _ 0 index (refineSpec_disjoint _ _ _ h.disjoint) a _ hac x hx
      (by rw [h.len]; omega)
    simpa using this

/-! ### The map of `s_Initial` -/

theorem mapAppend_new : ∀ (l : List (Int × List Nat)) (key : Int) (v : Nat),
    (∀ kl ∈ l, kl.1 < key) → mapAppend l key v = l ++ [(key, [v])] := by
  intro l
  induction l with
  | nil => intro key v _; rfl
  | cons kl rest ih =>
    intro key v h
    obtain ⟨k, l⟩ := kl
    have hk : k < key := h (k, l) (List.mem_cons_self _ _)
    simp only [mapAppend]
    rw [if_neg (by omega), if_neg (by omega),
      ih key v (fun kl hkl => h kl (List.mem_cons_of_mem _ hkl))]
    rfl

theorem mapAppend_old : ∀ (l : List (Int × List Nat)) (key : Int) (v : Nat),
    (l.map Prod.fst).Pairwise (· < ·) → key ∈ l.map Prod.fst →
    mapAppend l key v =
      l.map (fun kl => if kl.1 = key then (kl.1, kl.2 ++ [v]) else kl) := by
  intro l
  induction l with
  | nil => intro key v _ h; cases h
  | cons kl rest ih =>
    intro key v hs hmem
    obtain ⟨k, l⟩ := kl
    simp only [List.map_cons, List.pairwise_cons] at hs
    simp only [List.map_cons, List.mem_cons] at hmem
    simp only [mapAppend, List.map_cons]
    by_cases hk : key = k
    · subst hk
      rw [if_pos rfl, if_pos rfl]
      congr 1
      symm
      conv_rhs => rw [← List.map_id rest]
      apply List.map_congr_left
      intro kl hkl
      have := hs.1 kl.1 (List.mem_map_of_mem _ hkl)
      rw [if_neg (by omega)]
      rfl
    · rcases hmem with h | h
      · exact absurd h hk
      · have hlt := hs.1 key h
        rw [if_neg hk, if_neg (by omega), if_neg (fun e => hk e.symm), ih key v hs.2 h]

theorem getD_set_int (l : List Int) (i j : Nat) (v : Int) (hi : i < l.length) :
    (l.set i v).getD j 0 = if j = i then v else l.getD j 0 := by
  rw [List.getD_eq_getElem?_getD, List.getD_eq_getElem?_getD, List.getElem?_set]
  by_cases h : i = j
  · subst h; simp [hi]
  · have : ¬ j = i := fun e => h e.symm
    simp [h, this]

theorem keys_lt_of_range {l : List (Int × List Nat)} {m : Nat}
    (h : l.map Prod.fst = (List.range m).map (fun (k : Nat) => (k : Int))) :
    ∀ kl ∈ l, 0 ≤ kl.1 ∧ kl.1 < (m : Int) := by
  intro kl hkl
  have h1 : kl.1 ∈ l.map Prod.fst := List.mem_map_of_mem _ hkl
  rw [h, List.mem_map] at h1
  obtain ⟨k, hk, hk2⟩ := h1
  rw [List.mem_range] at hk
  omega

theorem keys_sorted_of_range {l : List (Int × List Nat)} {m : Nat}
    (h : l.map Prod.fst = (List.range m).map (fun (k : Nat) => (k : Int))) :
    (l.map Prod.fst).Pairwise (· < ·) := by
  rw [h, List.pairwise_map]
  refine List.Pairwise.imp ?_ (List.pairwise_lt_range m)
  intro a b hab
  exact_mod_cast hab

theorem key_mem_of_range {l : List (Int × List Nat)} {m : Nat}
    (h : l.map Prod.fst = (List.range m).map (fun (k : Nat) => (k : Int)))
    {key : Int} (h0 : 0 ≤ key) (h1 : key < (m : Int)) : key ∈ l.map Prod.fst := by
  rw [h, List.mem_map]
  exact ⟨key.toNat, List.mem_range.mpr (by omega), by omega⟩

/-! ### The collecting loop of `s_Initial` -/

theorem initialStep_unseen (str : List Nat) (st : InitState) (i : Nat)
    (hlt : charCode str i < st.pos.length) (hneg : st.pos.getD (charCode str i) 0 < 0) :
    initialStep str st i =
      some { pos := st.pos.set (charCode str i) st.index,
             eClass := mapAppend st.eClass st.index i,
             index := st.index + 1 } := by
  simp only [initialStep]
  rw [if_pos hlt, if_pos hneg]
  simp only [getD_set_int _ _ _ _ hlt, if_true]

theorem initialStep_seen (str : List Nat) (st : InitState) (i : Nat)
    (hlt : charCode str i < st.pos.length) (hneg : ¬ st.pos.getD (charCode str i) 0 < 0) :
    initialStep str st i =
      some { pos := st.pos,
             eClass := mapAppend st.eClass (st.pos.getD (charCode str i) 0) i,
             index := st.index } := by
  simp only [initialStep]
  rw [if_pos hlt, if_neg hneg]

theorem InitInv.step_unseen {str : List Nat} {i m : Nat} {st : InitState}
    (h : InitInv str i m st) (hc : charCode str i < 256)
    (hneg : st.pos.getD (charCode str i) 0 < 0) :
    InitInv str (i + 1) (m + 1)
      { pos := st.pos.set (charCode str i) st.index,
        eClass := mapAppend st.eClass st.index i,
        index := st.index + 1 } := by
  have hlt : charCode str i < st.pos.length := by rw [h.pos_len]; exact hc
  have hkeys := keys_lt_of_range h.keys
  have hmap : mapAppend st.eClass st.index i = st.eClass ++ [((m : Int), [i])] := by
    rw [mapAppend_new _ _ _ (by rw [h.index_val]; exact fun kl hkl => (hkeys kl hkl).2),
      h.index_val]
  have hunseen := (h.pos_seen _ hc).mp hneg
  have hpos : ∀ c, (st.pos.set (charCode str i) st.index).getD c 0 =
      if c = charCode str i then (m : Int) else st.pos.getD c 0 := by
    intro c; rw [getD_set_int _ _ _ _ hlt, h.index_val]
  have hold : ∀ j, j < i →
      (st.pos.set (charCode str i) st.index).getD (charCode str j) 0 =
        st.pos.getD (charCode str j) 0 := by
    intro j hj
    rw [hpos, if_neg (hunseen j hj)]
  have hseen_nonneg : ∀ j, j < i → 0 ≤ st.pos.getD (charCode str j) 0 := by
    intro j hj
    by_contra hcon
    exact (h.pos_seen _ (h.code_lt j hj)).mp (by omega) j hj rfl
  constructor
  · simp only [List.length_set]; exact h.pos_len
  · simp only [h.index_val]; push_cast; rfl
  · simp only [hmap, List.map_append, h.keys, List.range_succ, List.map_cons, List.map_nil]
  · intro j hj
    by_cases hji : j = i
    · subst hji; exact hc
    · exact h.code_lt j (by omega)
  · intro c hc256
    simp only [hpos]
    by_cases hcx : c = charCode str i
    · subst hcx
      simp only [if_true]
      constructor
      · intro h0; omega
      · intro h0; exact absurd rfl (h0 i (by omega))
    · simp only [if_neg hcx]
      rw [h.pos_seen c hc256]
      constructor
      · intro h0 j hj
        by_cases hji : j = i
        · subst hji; exact fun e => hcx e.symm
        · exact h0 j (by omega)
      · intro h0 j hj
        exact h0 j (by omega)
  · intro c hc256
    simp only [hpos]
    have := h.pos_lt c hc256
    split <;> omega
  · intro c d hc256 hd256
    simp only [hpos]
    have h1 := h.pos_lt c hc256
    have h2 := h.pos_lt d hd256
    by_cases hcx : c = charCode str i
    · by_cases hdx : d = charCode str i
      · intro _ _; rw [hcx, hdx]
      · rw [if_pos hcx, if_neg hdx]; intro _ _; omega
    · by_cases hdx : d = charCode str i
      · rw [if_neg hcx, if_pos hdx]; intro _ _; omega
      · rw [if_neg hcx, if_neg hdx]; exact h.pos_inj c d hc256 hd256
  · intro kl hkl
    simp only [hmap, List.mem_append, List.mem_singleton] at hkl
    rcases hkl with hkl | hkl
    · exact h.cls_sorted kl hkl
    · subst hkl; simp
  · intro kl hkl j
    simp only [hmap, List.mem_append, List.mem_singleton] at hkl
    rcases hkl with hkl | hkl
    · rw [h.cls_mem kl hkl j]
      constructor
      · rintro ⟨hj, hk⟩
        exact ⟨by omega, by rw [hold j hj]; exact hk⟩
      · rintro ⟨hj, hk⟩
        by_cases hji : j = i
        · subst hji
          rw [hpos, if_pos rfl] at hk
          have := (hkeys kl hkl).2
          omega
        · have hj2 : j < i := by omega
          exact ⟨hj2, by rw [hold j hj2] at hk; exact hk⟩
    · subst hkl
      simp only [List.mem_singleton]
      constructor
      · intro hj
        subst hj
        exact ⟨by omega, by rw [hpos, if_pos rfl]⟩
      · rintro ⟨hj, hk⟩
        by_contra hji
        have hj2 : j < i := by omega
        rw [hold j hj2] at hk
        have := h.pos_lt _ (h.code_lt j hj2)
        omega

theorem InitInv.step_seen {str : List Nat} {i m : Nat} {st : InitState}
    (h : InitInv str i m st) (hc : charCode str i < 256)
    (hneg : ¬ st.pos.getD (charCode str i) 0 < 0) :
    InitInv str (i + 1) m
      { pos := st.pos,
        eClass := mapAppend st.eClass (st.pos.getD (charCode str i) 0) i,
        index := st.index } := by
  have hkeys := keys_lt_of_range h.keys
  have hk0 := h.pos_lt _ hc
  have hmap := mapAppend_old st.eClass (st.pos.getD (charCode str i) 0) i
    (keys_sorted_of_range h.keys) (key_mem_of_range h.keys (by omega) hk0)
  constructor
  · exact h.pos_len
  · exact h.index_val
  · simp only [hmap, List.map_map]
    rw [← h.keys]
    apply List.map_congr_left
    intro kl _
    simp only [Function.comp]
    split <;> rfl
  · intro j hj
    by_cases hji : j = i
    · subst hji; exact hc
    · exact h.code_lt j (by omega)
  · intro c hc256
    simp only
    rw [h.pos_seen c hc256]
    constructor
    · intro h0 j hj
      by_cases hji : j = i
      · subst hji
        intro e
        rw [e] at hneg
        exact hneg ((h.pos_seen c hc256).mpr h0)
      · exact h0 j (by omega)
    · intro h0 j hj
      exact h0 j (by omega)
  · exact h.pos_lt
  · exact h.pos_inj
  · intro kl hkl
    simp only [hmap, List.mem_map] at hkl
    obtain ⟨kl0, hkl0, rfl⟩ := hkl
    split
    · simp only
      rw [List.pairwise_append]
      refine ⟨h.cls_sorted kl0 hkl0, by simp, ?_⟩
      intro a ha b hb
      rw [List.mem_singleton] at hb
      subst hb
      exact ((h.cls_mem kl0 hkl0 a).mp ha).1
    · exact h.cls_sorted kl0 hkl0
  · intro kl hkl j
    simp only [hmap, List.mem_map] at hkl
    obtain ⟨kl0, hkl0, rfl⟩ := hkl
    simp only
    split
    · rename_i hkey
      simp only [List.mem_append, List.mem_singleton, h.cls_mem kl0 hkl0 j]
      constructor
      · rintro (⟨hj, hk⟩ | hj)
        · exact ⟨by omega, hk⟩
        · subst hj; exact ⟨by omega, hkey.symm⟩
      · rintro ⟨hj, hk⟩
        by_cases hji : j = i
        · exact Or.inr hji
        · exact Or.inl ⟨by omega, hk⟩
    · rename_i hkey
      rw [h.cls_mem kl0 hkl0 j]
      constructor
      · rintro ⟨hj, hk⟩
        exact ⟨by omega, hk⟩
      · rintro ⟨hj, hk⟩
        by_cases hji : j = i
        · subst hji; exact absurd hk.symm hkey
        · exact ⟨by omega, hk⟩

theorem InitInv.collect {str : List Nat} : ∀ (k i m : Nat) (st : InitState),
    InitInv str i m st → (∀ j, i ≤ j → j < i + k → charCode str j < 256) →
    ∃ m1 st1, initialCollect str k i st = some st1 ∧ InitInv str (i + k) m1 st1 := by
  intro k
  induction k with
  | zero => intro i m st h _; exact ⟨m, st, rfl, h⟩
  | succ k ih =>
    intro i m st h hcode
    have hc := hcode i (le_refl i) (by omega)
    have hlt : charCode str i < st.pos.length := by rw [h.pos_len]; exact hc
    by_cases hneg : st.pos.getD (charCode str i) 0 < 0
    · obtain ⟨m1, st1, h1, h2⟩ := ih (i + 1) (m + 1) _ (h.step_unseen hc hneg)
        (fun j hj1 hj2 => hcode j (by omega) (by omega))
      refine ⟨m1, st1, ?_, by rw [show i + (k + 1) = i + 1 + k by omega]; exact h2⟩
      simp only [initialCollect, initialStep_unseen str st i hlt hneg]
      exact h1
    · obtain ⟨m1, st1, h1, h2⟩ := ih (i + 1) m _ (h.step_seen hc hneg)
        (fun j hj1 hj2 => hcode j (by omega) (by omega))
      refine ⟨m1, st1, ?_, by rw [show i + (k + 1) = i + 1 + k by omega]; exact h2⟩
      simp only [initialCollect, initialStep_seen str st i hlt hneg]
      exact h1

theorem InitInv.init (str : List Nat) :
    InitInv str 0 0 { pos := List.replicate 256 (-1), eClass := [], index := 0 } := by
  have hget : ∀ c, c < 256 → (List.replicate 256 (-1 : Int)).getD c 0 = -1 := by
    intro c hc
    rw [List.getD_eq_getElem?_getD]
    cases h : (List.replicate 256 (-1 : Int))[c]? with
    | none =>
      rw [List.getElem?_eq_none_iff, List.length_replicate] at h
      omega
    | some v =>
      have := List.getElem?_mem h
      rw [List.mem_replicate] at this
      simp [this.2]
  constructor
  · exact List.length_replicate _ _
  · rfl
  · rfl
  · intro j hj; omega
  · intro c hc
    simp only [hget c hc]
    constructor
    · intro _ j hj; omega
    · intro _; omega
  · intro c hc; simp only [hget c hc]; omega
  · intro c d hc hd; simp only [hget c hc]; omega
  · intro kl hkl; cases hkl
  · intro kl hkl; cases hkl

/-! ### The bootstrap establishes the invariant -/

theorem charCode_lt {S : List Nat} (hrange : ∀ c ∈ S, c < 256) (j : Nat) :
    charCode S j < 256 := by
  unfold charCode
  split
  · omega
  · rw [List.getD_eq_getElem?_getD]
    cases h : S[j]? with
    | none => simp
    | some v => simpa using hrange v (List.getElem?_mem h)

theorem charCode_eq_iff {S : List Nat} (hnul : ∀ c ∈ S, c ≠ 0) {x y : Nat}
    (hx : x ≤ S.length) (hy : y ≤ S.length) :
    charCode S x = charCode S y ↔ S[x]? = S[y]? := by
  have key : ∀ z, z ≤ S.length → z ≠ S.length →
      S[z]? = some (charCode S z) ∧ charCode S z ≠ 0 := by
    intro z hz hne
    have hlt : z < S.length := by omega
    have h1 : S[z]? = some S[z] := List.getElem?_eq_getElem hlt
    have h2 : charCode S z = S[z] := by
      unfold charCode
      rw [if_neg hne, List.getD_eq_getElem?_getD, h1]
      rfl
    rw [h2]
    exact ⟨h1, hnul _ (List.getElem_mem hlt)⟩
  have hend : S[S.length]? = none ∧ charCode S S.length = 0 := by
    refine ⟨List.getElem?_eq_none_iff.mpr (le_refl _), ?_⟩
    unfold charCode
    rw [if_pos rfl]
  by_cases hxe : x = S.length
  · by_cases hye : y = S.length
    · rw [hxe, hye]; simp
    · obtain ⟨h1, h2⟩ := key y hy hye
      rw [hxe, hend.1, hend.2, h1]
      constructor
      · intro h; exact absurd h.symm h2
      · intro h; cases h
  · obtain ⟨h1, h2⟩ := key x hx hxe
    by_cases hye : y = S.length
    · rw [hye, hend.1, hend.2, h1]
      constructor
      · intro h; exact absurd h h2
      · intro h; cases h
    · obtain ⟨h3, h4⟩ := key y hy hye
      rw [h1, h3]
      constructor
      · intro h; rw [h]
      · intro h; injection h

theorem s_Initial_collect {S : List Nat} (hrange : ∀ c ∈ S, c < 256) :
    ∃ m st, InitInv S (S.length + 1) m st ∧
      s_Initial S = some (st.eClass.map Prod.snd,
        assignIndex (st.eClass.map Prod.snd) 0 (List.replicate (S.length + 1) (-1))) := by
  have h0 := InitInv.collect (S.length + 1) 0 0
    { pos := List.replicate 256 (-1), eClass := [], index := 0 } (InitInv.init S)
    (fun j _ _ => charCode_lt hrange j)
  obtain ⟨m, st, h1, h2⟩ := h0
  rw [Nat.zero_add] at h2
  refine ⟨m, st, h2, ?_⟩
  unfold s_Initial
  rw [h1]

theorem InitInv.classes_disjoint {S : List Nat} {i m : Nat} {st : InitState}
    (h : InitInv S i m st) : (st.eClass.map Prod.snd).Pairwise List.Disjoint := by
  have hs := keys_sorted_of_range h.keys
  rw [List.pairwise_map] at hs ⊢
  refine List.Pairwise.imp_of_mem ?_ hs
  intro a b ha hb hab x hxa hxb
  have h1 := ((h.cls_mem a ha x).mp hxa).2
  have h2 := ((h.cls_mem b hb x).mp hxb).2
  omega

theorem InitInv.inv {S : List Nat} {m : Nat} {st : InitState}
    (h : InitInv S (S.length + 1) m st) (hnul : ∀ c ∈ S, c ≠ 0) (hlen : 1 ≤ S.length) :
    Inv S 1 (st.eClass.map Prod.snd)
      (assignIndex (st.eClass.map Prod.snd) 0 (List.replicate (S.length + 1) (-1))) := by
  have hkeys := keys_lt_of_range h.keys
  have hcls : ∀ c ∈ st.eClass.map Prod.snd, ∃ kl ∈ st.eClass, kl.2 = c := by
    intro c hc
    rw [List.mem_map] at hc
    exact hc
  constructor
  · rw [assignIndex_length, List.length_replicate]
  · intro c hc
    obtain ⟨kl, hkl, rfl⟩ := hcls c hc
    exact h.cls_sorted kl hkl
  · exact h.classes_disjoint
  · intro x
    constructor
    · rintro ⟨c, hc, hx⟩
      obtain ⟨kl, hkl, rfl⟩ := hcls c hc
      have hx1 := ((h.cls_mem kl hkl x).mp hx).1
      refine ⟨by omega, if x = 0 then 1 else 0, ?_, ?_, fun t ht => by omega⟩
      · split <;> omega
      · split <;> omega
    · rintro ⟨hx, -⟩
      have hc256 := h.code_lt x (by omega)
      have h0 : 0 ≤ st.pos.getD (charCode S x) 0 := by
        by_contra hcon
        exact (h.pos_seen _ hc256).mp (by omega) x (by omega) rfl
      have hmem := key_mem_of_range h.keys h0 (h.pos_lt _ hc256)
      rw [List.mem_map] at hmem
      obtain ⟨kl, hkl, hk⟩ := hmem
      exact ⟨kl.2, List.mem_map_of_mem _ hkl, (h.cls_mem kl hkl x).mpr ⟨by omega, hk.symm⟩⟩
  · intro c hc x hx d hd y hy
    obtain ⟨kl, hkl, rfl⟩ := hcls c hc
    obtain ⟨kl1, hkl1, rfl⟩ := hcls d hd
    obtain ⟨hx1, hx2⟩ := (h.cls_mem kl hkl x).mp hx
    obtain ⟨hy1, -⟩ := (h.cls_mem kl1 hkl1 y).mp hy
    rw [h.cls_mem kl hkl y]
    have heqv : Eqv S 1 x y ↔ S[x]? = S[y]? := by
      constructor
      · intro he; simpa using he 0 (by omega)
      · intro he t ht
        have : t = 0 := by omega
        subst this
        simpa using he
    rw [heqv, ← charCode_eq_iff hnul (by omega) (by omega)]
    constructor
    · rintro ⟨-, hk⟩
      have h0 := (hkeys kl hkl).1
      exact h.pos_inj _ _ (h.code_lt x hx1) (h.code_lt y hy1) (by omega) (by omega)
    · intro he
      exact ⟨hy1, by rw [← he]; exact hx2⟩
  · intro a c hac x hx
    obtain ⟨kl, hkl, rfl⟩ := hcls c (List.getElem?_mem hac)
    have hx1 := ((h.cls_mem kl hkl x).mp hx).1
    have := assignIndex_of_mem _ 0 (List.replicate (S.length + 1) (-1)) h.classes_disjoint
      a _ hac x hx (by rw [List.length_replicate]; exact hx1)
    simpa using this

theorem s_Initial_inv {S : List Nat} (hnul : ∀ c ∈ S, c ≠ 0) (hrange : ∀ c ∈ S, c < 256)
    (hlen : 1 ≤ S.length) :
    ∃ cls index, s_Initial S = some (cls, index) ∧ Inv S 1 cls index := by
  obtain ⟨m, st, h1, h2⟩ := s_Initial_collect hrange
  exact ⟨_, _, h2, h1.inv hnul hlen⟩

/-! ### The driver loop -/

theorem loopBody_eq {S : List Nat} {st : LoopState} (h : Inv S st.p st.eClass st.index)
    (hp : 1 ≤ st.p) :
    loopBody st = some
      { p := st.p + 1
        eClass := refineSpec st.eClass.length st.index st.eClass
        index := assignIndex (refineSpec st.eClass.length st.index st.eClass) 0 st.index
        result := st.result ++ s_SelectRepeats st.p st.eClass } := by
  unfold loopBody
  rw [(h.refine hp).1]

theorem runLoop_spec {S : List Nat} : ∀ (fuel : Nat) (st : LoopState),
    Inv S st.p st.eClass st.index → 1 ≤ st.p → S.length / 2 + 1 ≤ fuel + st.p →
    ∃ st1, runLoop S.length fuel st = some st1 ∧
      (∀ t ∈ st.result, t ∈ st1.result) ∧
      (∀ t ∈ st1.result, t ∈ st.result ∨ ∃ q cls idx, st.p ≤ q ∧ q ≤ S.length / 2 ∧
        Inv S q cls idx ∧ t ∈ s_SelectRepeats q cls) ∧
      (∀ t : STandemRepeat, st.p ≤ t.repeat_len → t.repeat_len ≤ S.length / 2 →
        (∀ q cls idx, 1 ≤ q → q ≤ t.repeat_len → Inv S q cls idx → cls ≠ []) →
        (∀ cls idx, Inv S t.repeat_len cls idx → t ∈ s_SelectRepeats t.repeat_len cls) →
        t ∈ st1.result) := by
  intro fuel
  induction fuel with
  | zero =>
    intro st _ _ hfuel
    have hcond : loopCond S.length st = false := by
      simp only [loopCond, Bool.and_eq_false_imp, decide_eq_false_iff_not]
      intro _; omega
    refine ⟨st, by simp [runLoop, hcond], fun t ht => ht, fun t ht => Or.inl ht, ?_⟩
    intro t h1 h2
    omega
  | succ fuel ih =>
    intro st hinv hp hfuel
    by_cases hcond : loopCond S.length st = true
    · have hple : st.p ≤ S.length / 2 := by
        simp only [loopCond, Bool.and_eq_true, decide_eq_true_eq] at hcond
        exact hcond.2
      obtain ⟨st1, hrun, hmono, hsound, hcompl⟩ := ih
        { p := st.p + 1
          eClass := refineSpec st.eClass.length st.index st.eClass
          index := assignIndex (refineSpec st.eClass.length st.index st.eClass) 0 st.index
          result := st.result ++ s_SelectRepeats st.p st.eClass }
        (hinv.refine hp).2 (by simp) (by simp only; omega)
      refine ⟨st1, ?_, ?_, ?_, ?_⟩
      · simp only [runLoop, hcond, if_true, loopBody_eq hinv hp]
        exact hrun
      · intro t ht
        exact hmono t (List.mem_append_left _ ht)
      · intro t ht
        rcases hsound t ht with h | ⟨q, cls, idx, hq1, hq2, hq3, hq4⟩
        · rcases List.mem_append.mp h with h | h
          · exact Or.inl h
          · exact Or.inr ⟨st.p, st.eClass, st.index, le_refl _, hple, hinv, h⟩
        · exact Or.inr ⟨q, cls, idx, by simp only at hq1; omega, hq2, hq3, hq4⟩
      · intro t h1 h2 h3 h4
        by_cases heq : t.repeat_len = st.p
        · apply hmono
          refine List.mem_append_right _ ?_
          have := h4 st.eClass st.index (by rw [heq]; exact hinv)
          rw [heq] at this
          exact this
        · exact hcompl t (by simp only; omega) h2 h3 h4
    · refine ⟨st, by simp [runLoop, hcond], fun t ht => ht, fun t ht => Or.inl ht, ?_⟩
      intro t h1 h2 h3 _
      exfalso
      have hne := h3 st.p st.eClass st.index hp h1 hinv
      apply hcond
      simp only [loopCond, Bool.and_eq_true, decide_eq_true_eq]
      refine ⟨?_, by omega⟩
      cases h : st.eClass with
      | nil => exact absurd h hne
      | cons a l => rfl

/-- The driver returns a list; every entry was selected for some period `q`
from classes that satisfy the invariant for `q`, and every triple that the
selection would report at its period, with classes left at all periods up to
it, is in the list. -/
theorem g_spec {S : List Nat} (hnul : ∀ c ∈ S, c ≠ 0) (hrange : ∀ c ∈ S, c < 256) :
    ∃ r, g_MaximalPrimitiveTandemRepeats S = some r ∧
      (∀ t ∈ r, ∃ q cls idx, 1 ≤ q ∧ q ≤ S.length / 2 ∧ Inv S q cls idx ∧
        t ∈ s_SelectRepeats q cls) ∧
      (∀ t : STandemRepeat, 1 ≤ t.repeat_len → t.repeat_len ≤ S.length / 2 →
        (∀ q cls idx, 1 ≤ q → q ≤ t.repeat_len → Inv S q cls idx → cls ≠ []) →
        (∀ cls idx, Inv S t.repeat_len cls idx → t ∈ s_SelectRepeats t.repeat_len cls) →
        t ∈ r) := by
  by_cases hlen : S.length ≤ 1
  · refine ⟨[], by simp [g_MaximalPrimitiveTandemRepeats, hlen], ?_, ?_⟩
    · intro t ht; cases ht
    · intro t h1 h2
      have : S.length / 2 = 0 := by
        rw [Nat.div_eq_zero_iff (by omega)]; omega
      omega
  · obtain ⟨cls, index, hinit, hinv⟩ := s_Initial_inv hnul hrange (by omega)
    obtain ⟨st1, hrun, -, hsound, hcompl⟩ := runLoop_spec (S := S) (S.length / 2)
      { p := 1, eClass := cls, index := index, result := [] } hinv (le_refl 1)
      (by simp only; omega)
    refine ⟨st1.result, ?_, ?_, ?_⟩
    · simp only [g_MaximalPrimitiveTandemRepeats, if_neg hlen, hinit, hrun]
    · intro t ht
      rcases hsound t ht with h | ⟨q, cls1, idx, hq1, hq2, hq3, hq4⟩
      · cases h
      · exact ⟨q, cls1, idx, hq1, hq2, hq3, hq4⟩
    · intro t h1 h2 h3 h4
      exact hcompl t h1 h2 h3 h4

/-! ### Words -/

theorem substr_getElem? (S : List Nat) (a len i : Nat) :
    (substr S a len)[i]? = if i < len then S[a + i]? else none := by
  unfold substr
  rw [List.getElem?_take, List.getElem?_drop]

theorem substr_length {S : List Nat} {a len : Nat} (h : a + len ≤ S.length) :
    (substr S a len).length = len := by
  unfold substr
  rw [List.length_take, List.length_drop]
  omega

theorem substr_eq_iff {S : List Nat} {a b len : Nat} :
    substr S a len = substr S b len ↔ Eqv S len a b := by
  constructor
  · intro h t ht
    have h1 := substr_getElem? S a len t
    have h2 := substr_getElem? S b len t
    rw [if_pos ht] at h1 h2
    rw [← h1, ← h2, h]
  · intro h
    apply List.ext_getElem?
    intro i
    rw [substr_getElem?, substr_getElem?]
    split
    · rename_i hi; exact h i hi
    · rfl

theorem wordPower_length (w : List Nat) : ∀ m, (wordPower w m).length = m * w.length := by
  intro m
  induction m with
  | zero => simp [wordPower]
  | succ m ih => simp [wordPower, ih, Nat.succ_mul, Nat.add_comm]

theorem wordPower_getElem? (w : List Nat) : ∀ (m i : Nat), i < m * w.length →
    (wordPower w m)[i]? = w[i % w.length]? := by
  intro m
  induction m with
  | zero => intro i hi; simp at hi
  | succ m ih =>
    intro i hi
    simp only [wordPower]
    by_cases h : i < w.length
    · rw [List.getElem?_append_left h, Nat.mod_eq_of_lt h]
    · rw [List.getElem?_append_right (by omega), ih (i - w.length)
        (by rw [Nat.succ_mul] at hi; omega)]
      congr 1
      have hle : w.length ≤ i := by omega
      conv_rhs => rw [← Nat.sub_add_cancel hle, Nat.add_mod_right]

/-- A word that is unchanged by a rotation by `d` places, `0 < d < p`, is a
shorter word written several times. -/
theorem exists_power_of_rotation {S : List Nat} {s p d : Nat} (hsp : s + p ≤ S.length)
    (hd0 : 0 < d) (hdp : d < p)
    (hrot : ∀ t, t < p → S[s + t]? = S[s + (t + d) % p]?) :
    ∃ w m, 2 ≤ m ∧ substr S s p = wordPower w m := by
  -- the unit, read cyclically, as a function on the integers
  let F : Int → Option Nat := fun z => S[s + (z % (p : Int)).toNat]?
  have hpos : (0 : Int) < (p : Int) := by omega
  have hFp : Function.Periodic F (p : Int) := by
    intro z
    show S[s + ((z + (p : Int)) % (p : Int)).toNat]? = S[s + (z % (p : Int)).toNat]?
    rw [Int.add_emod_self]
  have hFd : Function.Periodic F (d : Int) := by
    intro z
    show S[s + ((z + (d : Int)) % (p : Int)).toNat]? = S[s + (z % (p : Int)).toNat]?
    have h0 : 0 ≤ z % (p : Int) := Int.emod_nonneg _ (by omega)
    have h1 : z % (p : Int) < (p : Int) := Int.emod_lt_of_pos _ hpos
    have h2 := hrot (z % (p : Int)).toNat (by omega)
    rw [h2]
    congr 2
    have h3 : (((z % (p : Int)).toNat + d) % p : Nat) = ((z + (d : Int)) % (p : Int)).toNat := by
      have h4 : (((((z % (p : Int)).toNat + d) % p : Nat)) : Int) = (z + (d : Int)) % (p : Int) := by
        push_cast
        rw [Int.toNat_of_nonneg h0, Int.emod_add_emod]
      omega
    omega
  let g := Nat.gcd d p
  have hg : Function.Periodic F (g : Int) := by
    have h1 := (hFd.int_mul (Nat.gcdA d p)).add_period (hFp.int_mul (Nat.gcdB d p))
    have h2 : (g : Int) = Nat.gcdA d p * (d : Int) + Nat.gcdB d p * (p : Int) := by
      rw [Nat.gcd_eq_gcd_ab d p]; ring
    rw [h2]; exact h1
  have hgpos : 0 < g := Nat.gcd_pos_of_pos_left p hd0
  have hgd : g ≤ d := Nat.le_of_dvd hd0 (Nat.gcd_dvd_left d p)
  have hgp : g ∣ p := Nat.gcd_dvd_right d p
  obtain ⟨m, hm⟩ := hgp
  have hm2 : 2 ≤ m := by
    by_contra hcon
    have : m = 0 ∨ m = 1 := by omega
    rcases this with h | h
    · subst h; omega
    · subst h; omega
  have hFi : ∀ i : Nat, i < p → F (i : Int) = S[s + i]? := by
    intro i hi
    show S[s + (((i : Int)) % (p : Int)).toNat]? = S[s + i]?
    rw [Int.emod_eq_of_lt (by omega) (by omega)]
    rfl
  have hmod : ∀ i : Nat, i < p → S[s + i]? = S[s + i % g]? := by
    intro i hi
    have hlt : i % g < p := by
      have := Nat.mod_lt i hgpos
      omega
    rw [← hFi i hi, ← hFi (i % g) hlt]
    have h1 := (hg.int_mul ((i / g : Nat) : Int)) ((i % g : Nat) : Int)
    rw [← h1]
    congr 1
    have := Nat.mod_add_div i g
    conv_lhs => rw [← this]
    push_cast
    ring
  refine ⟨substr S s g, m, hm2, ?_⟩
  have hglen : (substr S s g).length = g := substr_length (by
    have : g ≤ p := by omega
    omega)
  apply List.ext_getElem?
  intro i
  by_cases hi : i < p
  · rw [wordPower_getElem? _ _ _ (by rw [hglen, Nat.mul_comm, ← hm]; exact hi), hglen,
      substr_getElem?, substr_getElem?, if_pos hi, if_pos (Nat.mod_lt i hgpos)]
    exact hmod i hi
  · rw [List.getElem?_eq_none_iff.mpr (by rw [substr_length hsp]; omega),
      List.getElem?_eq_none_iff.mpr (by
        rw [wordPower_length, hglen, Nat.mul_comm, ← hm]; omega)]

/-! ### What a selected block says about the string -/

theorem mul_pred_add (p k : Nat) (hk : 1 ≤ k) : p * k = p * (k - 1) + p := by
  have : k = (k - 1) + 1 := by omega
  conv_lhs => rw [this, Nat.mul_succ]

theorem Inv.mem_of_eqv {S : List Nat} {p : Nat} {cls : List (List Nat)} {index : List Int}
    (h : Inv S p cls index) {c : List Nat} (hc : c ∈ cls) {x y : Nat} (hx : x ∈ c)
    (hy : y ≤ S.length) (hyx : y ≠ x) (he : Eqv S p x y) : y ∈ c := by
  obtain ⟨-, d, -, -, hd, hyd, -⟩ :=
    h.exists_class hy (h.le_length hc hx) hyx (he.symm.mono (by omega))
  exact (h.cls_eqv c hc x hx d hd y hyd).mpr he

theorem run_members {S : List Nat} {p : Nat} {cls : List (List Nat)} {index : List Int}
    (h : Inv S p cls index) (hp : 1 ≤ p) {c : List Nat} (hc : c ∈ cls) {t : STandemRepeat}
    (ht : IsRun c p t) :
    (∀ i j, i < t.num_repeats → j < t.num_repeats →
      Eqv S p (t.start + p * i) (t.start + p * j)) ∧
    t.start + p * t.num_repeats ≤ S.length := by
  obtain ⟨-, hk, hmem, -⟩ := ht
  have heqv : ∀ i j, i < t.num_repeats → j < t.num_repeats →
      Eqv S p (t.start + p * i) (t.start + p * j) :=
    fun i j hi hj => h.eqv_of_mem hc (hmem i hi) (hmem j hj)
  refine ⟨heqv, ?_⟩
  have h1 := heqv 0 (t.num_repeats - 1) (by omega) (by omega)
  have hpos : 0 < p * (t.num_repeats - 1) := Nat.mul_pos (by omega) (by omega)
  have h2 := h1.inrange_lt (by simp only [Nat.mul_zero, Nat.add_zero]; omega)
    (h.le_length hc (hmem _ (by omega)))
  have := mul_pred_add p t.num_repeats (by omega)
  omega

theorem run_isTandem {S : List Nat} {p : Nat} {cls : List (List Nat)} {index : List Int}
    (h : Inv S p cls index) (hp : 1 ≤ p) {c : List Nat} (hc : c ∈ cls) {t : STandemRepeat}
    (ht : IsRun c p t) : IsTandem S t := by
  obtain ⟨heqv, hbound⟩ := run_members h hp hc ht
  obtain ⟨hlen, hk, -⟩ := ht
  refine ⟨by omega, hk, by rw [hlen]; exact hbound, ?_⟩
  intro j hj1 hj2
  rw [hlen] at hj2 ⊢
  have hdm := Nat.div_add_mod (j - t.start) p
  have hr : (j - t.start) % p < p := Nat.mod_lt _ (by omega)
  have hi : (j - t.start) / p < t.num_repeats - 1 :=
    Nat.div_lt_of_lt_mul (by omega)
  have := heqv ((j - t.start) / p) ((j - t.start) / p + 1) (by omega) (by omega)
    ((j - t.start) % p) hr
  rw [Nat.mul_succ] at this
  rw [show t.start + p * ((j - t.start) / p) + (j - t.start) % p = j by omega,
    show t.start + (p * ((j - t.start) / p) + p) + (j - t.start) % p = j + p by omega] at this
  exact this

theorem tandem_eqv {S : List Nat} {t : STandemRepeat} (ht : IsTandem S t) :
    ∀ i, i < t.num_repeats → Eqv S t.repeat_len t.start (t.start + t.repeat_len * i) := by
  obtain ⟨hp, hk, hbound, hper⟩ := ht
  intro i
  induction i with
  | zero => intro _; exact Eqv.refl _ _ _
  | succ i ih =>
    intro hi
    refine (ih (by omega)).trans ?_
    intro x hx
    have hmono : t.repeat_len * (i + 1) ≤ t.repeat_len * (t.num_repeats - 1) :=
      Nat.mul_le_mul_left _ (by omega)
    rw [Nat.mul_succ] at hmono ⊢
    have := hper (t.start + t.repeat_len * i + x) (by omega) (by omega)
    rw [this]
    congr 1
    omega

theorem tandem_classes_nonempty {S : List Nat} {t : STandemRepeat} (ht : IsTandem S t)
    {q : Nat} {cls : List (List Nat)} {index : List Int} (hq : q ≤ t.repeat_len)
    (h : Inv S q cls index) : cls ≠ [] := by
  have he := tandem_eqv ht 1 (by have := ht.2.1; omega)
  obtain ⟨hp, hk, hbound, -⟩ := ht
  rw [Nat.mul_one] at he
  have hk1 := mul_pred_add t.repeat_len t.num_repeats (by omega)
  have hpk : t.repeat_len ≤ t.repeat_len * (t.num_repeats - 1) :=
    Nat.le_mul_of_pos_right _ (by omega)
  obtain ⟨c, hc, -⟩ := (h.mem t.start).mpr
    ⟨by omega, t.start + t.repeat_len, by omega, by omega, he.mono (by omega)⟩
  intro hnil
  rw [hnil] at hc
  cases hc

theorem maximal_isRun {S : List Nat} {t : STandemRepeat}
    (ht : IsMaximalPrimitiveTandemRepeat S t) {cls : List (List Nat)} {index : List Int}
    (h : Inv S t.repeat_len cls index) : ∃ c ∈ cls, IsRun c t.repeat_len t := by
  obtain ⟨htan, hprim, hmax⟩ := ht
  have heqv := tandem_eqv htan
  obtain ⟨hp, hk, hbound, hper⟩ := htan
  have hk1 := mul_pred_add t.repeat_len t.num_repeats (by omega)
  have hpk : t.repeat_len ≤ t.repeat_len * (t.num_repeats - 1) :=
    Nat.le_mul_of_pos_right _ (by omega)
  have he1 := heqv 1 (by omega)
  rw [Nat.mul_one] at he1
  obtain ⟨c, hc, hsc⟩ := (h.mem t.start).mpr
    ⟨by omega, t.start + t.repeat_len, by omega, by omega, he1.mono (by omega)⟩
  have hmem : ∀ i, i < t.num_repeats → t.start + t.repeat_len * i ∈ c := by
    intro i hi
    rcases Nat.eq_zero_or_pos i with hi0 | hi0
    · subst hi0; simpa using hsc
    · have h1 : t.repeat_len ≤ t.repeat_len * i := Nat.le_mul_of_pos_right _ hi0
      have h2 : t.repeat_len * i ≤ t.repeat_len * (t.num_repeats - 1) :=
        Nat.mul_le_mul_left _ (by omega)
      exact h.mem_of_eqv hc hsc (by omega) (by omega) (heqv i hi)
  refine ⟨c, hc, rfl, hk, hmem, ?_, ?_, ?_⟩
  · intro w hw hw1 hw2
    have hdm := Nat.div_add_mod (w - t.start) t.repeat_len
    have hr : (w - t.start) % t.repeat_len < t.repeat_len := Nat.mod_lt _ (by omega)
    rcases Nat.eq_zero_or_pos ((w - t.start) % t.repeat_len) with hd0 | hd0
    · refine ⟨(w - t.start) / t.repeat_len, ?_, by omega⟩
      have : t.repeat_len * ((w - t.start) / t.repeat_len) ≤
          t.repeat_len * (t.num_repeats - 1) := by omega
      have := Nat.le_of_mul_le_mul_left this (by omega)
      omega
    · exfalso
      have hi : (w - t.start) / t.repeat_len < t.num_repeats - 1 := by
        by_contra hcon
        have : t.repeat_len * (t.num_repeats - 1) ≤
            t.repeat_len * ((w - t.start) / t.repeat_len) :=
          Nat.mul_le_mul_left _ (by omega)
        omega
      have hsa := heqv ((w - t.start) / t.repeat_len) (by omega)
      have hsa1 := heqv ((w - t.start) / t.repeat_len + 1) (by omega)
      rw [Nat.mul_succ] at hsa1
      have hsw := h.eqv_of_mem hc hsc hw
      obtain ⟨u, m, hm, hu⟩ := exists_power_of_rotation (S := S) (s := t.start)
        (p := t.repeat_len) (d := (w - t.start) % t.repeat_len) (by omega) hd0 hr (by
          intro x hx
          rw [hsw x hx]
          by_cases hlt : x + (w - t.start) % t.repeat_len < t.repeat_len
          · rw [Nat.mod_eq_of_lt hlt,
              hsa (x + (w - t.start) % t.repeat_len) hlt]
            congr 1
            omega
          · have hx2 : x + (w - t.start) % t.repeat_len - t.repeat_len < t.repeat_len := by
              omega
            rw [Nat.mod_eq_sub_mod (by omega), Nat.mod_eq_of_lt hx2, hsa1 _ hx2]
            congr 1
            omega)
      exact hprim u m hm hu
  · intro w hw hwp
    exfalso
    have hsw := h.eqv_of_mem hc hsc hw
    refine hmax.1 (by omega) (substr_eq_iff.mpr ?_)
    rw [show t.start - t.repeat_len = w by omega]
    exact hsw.symm
  · intro w hw hwp
    exfalso
    have hsw := h.eqv_of_mem hc hsc hw
    have hwl := h.le_length hc hw
    have hr := hsw.inrange_lt (by omega) hwl
    refine hmax.2 (by omega) (substr_eq_iff.mpr ?_)
    rw [← hwp]
    exact hsw.symm

/-- Every entry of the returned list is a maximal block of a class that
satisfies the invariant for the entry's period. -/
theorem g_reported_run {S : List Nat} (hnul : ∀ c ∈ S, c ≠ 0) (hrange : ∀ c ∈ S, c < 256) :
    ∃ r, g_MaximalPrimitiveTandemRepeats S = some r ∧
      ∀ t ∈ r, ∃ q cls idx c, 1 ≤ q ∧ Inv S q cls idx ∧ c ∈ cls ∧ IsRun c q t := by
  obtain ⟨r, hr, hsound, -⟩ := g_spec hnul hrange
  refine ⟨r, hr, ?_⟩
  intro t ht
  obtain ⟨q, cls, idx, hq, -, hinv, hsel⟩ := hsound t ht
  obtain ⟨c, hc, hrun⟩ := (mem_s_SelectRepeats hq hinv.sorted t).mp hsel
  exact ⟨q, cls, idx, c, hq, hinv, hc, hrun⟩

set_option maxRecDepth 100000

/-! ### A result means that every table access was in range -/

theorem tandem_eq_power {S : List Nat} {t : STandemRepeat} (ht : IsTandem S t) :
    substr S t.start (t.repeat_len * t.num_repeats) =
      wordPower (substr S t.start t.repeat_len) t.num_repeats := by
  have heqv := tandem_eqv ht
  obtain ⟨hp, hk, hbound, -⟩ := ht
  have hpk : t.repeat_len ≤ t.repeat_len * t.num_repeats :=
    Nat.le_mul_of_pos_right _ (by omega)
  have hlen : (substr S t.start t.repeat_len).length = t.repeat_len :=
    substr_length (by omega)
  apply List.ext_getElem?
  intro i
  by_cases hi : i < t.repeat_len * t.num_repeats
  · have hr : i % t.repeat_len < t.repeat_len := Nat.mod_lt _ (by omega)
    have hq : i / t.repeat_len < t.num_repeats :=
      Nat.div_lt_of_lt_mul hi
    rw [wordPower_getElem? _ _ _ (by rw [hlen, Nat.mul_comm]; exact hi), hlen,
      substr_getElem?, substr_getElem?, if_pos hi, if_pos hr,
      heqv (i / t.repeat_len) hq (i % t.repeat_len) hr]
    congr 1
    have := Nat.div_add_mod i t.repeat_len
    omega
  · rw [List.getElem?_eq_none_iff.mpr (by rw [substr_length hbound]; omega),
      List.getElem?_eq_none_iff.mpr (by rw [wordPower_length, hlen, Nat.mul_comm]; omega)]

/-- A unit without a period that divides its length is not a shorter word
written several times. -/
theorem isPrimitive_of_no_period {S : List Nat} {t : STandemRepeat}
    (hp : 1 ≤ t.repeat_len) (hsp : t.start + t.repeat_len ≤ S.length)
    (h : ∀ q, 1 ≤ q → q < t.repeat_len → q ∣ t.repeat_len →
      ∃ i, i + q < t.repeat_len ∧ S[t.start + i]? ≠ S[t.start + (i + q)]?) :
    IsPrimitive S t := by
  intro w m hm hw
  have hpm : t.repeat_len = m * w.length := by
    rw [← wordPower_length, ← hw, substr_length hsp]
  have hchar : ∀ i, i < t.repeat_len → S[t.start + i]? = w[i % w.length]? := by
    intro i hi
    have h1 := substr_getElem? S t.start t.repeat_len i
    rw [if_pos hi, hw, wordPower_getElem? w m i (by omega)] at h1
    exact h1.symm
  rcases Nat.eq_zero_or_pos w.length with h0 | h0
  · rw [h0, Nat.mul_zero] at hpm
    omega
  · have hqp : w.length < t.repeat_len := by
      have : 2 * w.length ≤ m * w.length := Nat.mul_le_mul_right _ hm
      omega
    obtain ⟨i, hi, hne⟩ := h w.length h0 hqp ⟨m, by rw [hpm, Nat.mul_comm]⟩
    apply hne
    rw [hchar i (by omega), hchar (i + w.length) hi, Nat.add_mod_right]

/-- For a string without NUL characters whose characters index inside the
table `pos`, every maximal primitive tandem repeat of the string is in the
returned list. -/
theorem repeats_complete (S : List Nat) (hnul : ∀ c ∈ S, c ≠ 0) (hrange : ∀ c ∈ S, c < 256)
    (t : STandemRepeat) (ht : IsMaximalPrimitiveTandemRepeat S t) :
    ∃ r, g_MaximalPrimitiveTandemRepeats S = some r ∧ t ∈ r := by
  obtain ⟨r, hr, -, hcompl⟩ := g_spec hnul hrange
  refine ⟨r, hr, ?_⟩
  have htan := ht.1
  obtain ⟨hp, hk, hbound, -⟩ := ht.1
  have h2 : t.repeat_len * 2 ≤ t.repeat_len * t.num_repeats := Nat.mul_le_mul_left _ hk
  refine hcompl t hp ((Nat.le_div_iff_mul_le (by omega)).mpr (by omega)) ?_ ?_
  · intro q cls idx _ hq hinv
    exact tandem_classes_nonempty htan hq hinv
  · intro cls idx hinv
    exact (mem_s_SelectRepeats hp hinv.sorted t).mpr (maximal_isRun ht hinv)

theorem abab_maximal : IsMaximalPrimitiveTandemRepeat abab ⟨0, 2, 2⟩ := by
  refine ⟨⟨by decide, by decide, by decide, ?_⟩, ?_, ?_⟩
  · intro j _ h2
    simp only at h2
    interval_cases j <;> rfl
  · refine isPrimitive_of_no_period (by decide) (by decide) ?_
    intro q h1 h2 _
    simp only at h2
    interval_cases q
    exact ⟨0, by decide, by decide⟩
  · constructor
    · intro h; simp at h
    · intro h; exact absurd h (by decide)

theorem aabbcaabbc_maximal : IsMaximalPrimitiveTandemRepeat aabbcaabbc ⟨0, 5, 2⟩ := by
  refine ⟨⟨by decide, by decide, by decide, ?_⟩, ?_, ?_⟩
  · intro j _ h2
    simp only at h2
    interval_cases j <;> rfl
  · refine isPrimitive_of_no_period (by decide) (by decide) ?_
    intro q h1 h2 h3
    simp only at h2 h3
    interval_cases q
    · exact ⟨1, by decide, by decide⟩
    · exact absurd h3 (by decide)
    · exact absurd h3 (by decide)
    · exact absurd h3 (by decide)
  · constructor
    · intro h; simp at h
    · intro h; exact absurd h (by decide)

theorem repeats_complete_witness :
    (IsMaximalPrimitiveTandemRepeat aabbcaabbc ⟨0, 5, 2⟩ ∧
      ∃ r, g_MaximalPrimitiveTandemRepeats aabbcaabbc = some r ∧ ⟨0, 5, 2⟩ ∈ r) ∧
    (IsMaximalPrimitiveTandemRepeat abab ⟨0, 2, 2⟩ ∧
      ∃ r, g_MaximalPrimitiveTandemRepeats abab = some r ∧ ⟨0, 2, 2⟩ ∈ r) :=
  ⟨⟨aabbcaabbc_maximal,
      repeats_complete aabbcaabbc (by decide) (by decide) _ aabbcaabbc_maximal⟩,
    ⟨abab_maximal, repeats_complete abab (by decide) (by decide) _ abab_maximal⟩⟩

/-- For a string without NUL characters whose characters index inside the
table `pos`, every entry `(s, p, k)` of the returned list has `p ≥ 1`,
`k ≥ 2`, `s + p * k ≤ |S|` and `S[j] = S[j + p]` for
`s ≤ j < s + p * (k - 1)`, and `S[s .. s + p * k)` is the unit `S[s .. s + p)`
written `k` times. -/
theorem repeats_are_tandem (S : List Nat) (hnul : ∀ c ∈ S, c ≠ 0)
    (hrange : ∀ c ∈ S, c < 256) :
    ∃ r, g_MaximalPrimitiveTandemRepeats S = some r ∧
      ∀ t ∈ r, IsTandem S t ∧
        substr S t.start (t.repeat_len * t.num_repeats) =
          wordPower (substr S t.start t.repeat_len) t.num_repeats := by
  obtain ⟨r, hr, hrun⟩ := g_reported_run hnul hrange
  refine ⟨r, hr, ?_⟩
  intro t ht
  obtain ⟨q, cls, idx, c, hq, hinv, hc, hrun⟩ := hrun t ht
  have htan := run_isTandem hinv hq hc hrun
  exact ⟨htan, tandem_eq_power htan⟩

theorem repeats_are_tandem_witness :
    ∃ r, g_MaximalPrimitiveTandemRepeats mississippi = some r ∧
      ∀ t ∈ r, IsTandem mississippi t ∧
        substr mississippi t.start (t.repeat_len * t.num_repeats) =
          wordPower (substr mississippi t.start t.repeat_len) t.num_repeats :=
  repeats_are_tandem mississippi (by decide) (by decide)

theorem STandemRepeat.lt_iff (a b : STandemRepeat) :
    a.lt b = true ↔ a.start < b.start ∨ (a.start = b.start ∧ a.span < b.span) := by
  simp [STandemRepeat.lt]

theorem STandemRepeat.eq_iff (a b : STandemRepeat) : a.eq b = true ↔ a = b := by
  cases a; cases b
  simp [STandemRepeat.eq, and_assoc]

/-- C10, as stated, fails: the repeats `(0,1,4)` and `(0,2,2)` have the same
start and the same span, so neither is less than the other, and they are not
equal. -/
theorem STandemRepeat.lt_not_total :
    ¬ (∀ a b : STandemRepeat,
        (a.lt b = true ∧ a.eq b = false ∧ b.lt a = false) ∨
        (a.lt b = false ∧ a.eq b = true ∧ b.lt a = false) ∨
        (a.lt b = false ∧ a.eq b = false ∧ b.lt a = true)) := by
  intro h
  have h1 := h ⟨0, 1, 4⟩ ⟨0, 2, 2⟩
  revert h1
  decide

/-- C10, amended: `operator <` is irreflexive and transitive, at most one of
`a < b`, `a == b`, `b < a` holds, `a == b` is structural equality, and none of
the three holds exactly when `a` and `b` differ but have the same start and
the same span. -/
theorem STandemRepeat.lt_strict_weak_order (a b c : STandemRepeat) :
    a.lt a = false ∧
    (a.lt b = true → b.lt c = true → a.lt c = true) ∧
    (a.eq b = true ↔ a = b) ∧
    ¬ (a.lt b = true ∧ a.eq b = true) ∧
    ¬ (a.lt b = true ∧ b.lt a = true) ∧
    ¬ (a.eq b = true ∧ b.lt a = true) ∧
    ((a.lt b = false ∧ a.eq b = false ∧ b.lt a = false) ↔
      (a ≠ b ∧ a.start = b.start ∧ a.span = b.span)) := by
  have hab := STandemRepeat.lt_iff a b
  have hba := STandemRepeat.lt_iff b a
  have hbc := STandemRepeat.lt_iff b c
  have hac := STandemRepeat.lt_iff a c
  have haa := STandemRepeat.lt_iff a a
  have heq := STandemRepeat.eq_iff a b
  refine ⟨?_, ?_, heq, ?_, ?_, ?_, ?_⟩
  · cases h : a.lt a
    · rfl
    · have := haa.mp h; omega
  · intro h1 h2
    have := hab.mp h1; have := hbc.mp h2
    exact hac.mpr (by omega)
  · rintro ⟨h1, h2⟩
    have := hab.mp h1; have h3 := heq.mp h2
    subst h3; omega
  · rintro ⟨h1, h2⟩
    have := hab.mp h1; have := hba.mp h2
    omega
  · rintro ⟨h1, h2⟩
    have h3 := heq.mp h1; have := hba.mp h2
    subst h3; omega
  · constructor
    · rintro ⟨h1, h2, h3⟩
      have n1 : ¬ (a.start < b.start ∨ (a.start = b.start ∧ a.span < b.span)) := by
        intro h; rw [hab.mpr h] at h1; cases h1
      have n3 : ¬ (b.start < a.start ∨ (b.start = a.start ∧ b.span < a.span)) := by
        intro h; rw [hba.mpr h] at h3; cases h3
      have n2 : a ≠ b := by
        intro h; rw [heq.mpr h] at h2; cases h2
      exact ⟨n2, by omega, by omega⟩
    · rintro ⟨n2, hs, hp⟩
      refine ⟨?_, ?_, ?_⟩
      · cases h : a.lt b
        · rfl
        · have := hab.mp h; omega
      · cases h : a.eq b
        · rfl
        · exact absurd (heq.mp h) n2
      · cases h : b.lt a
        · rfl
        · have := hba.mp h; omega

/-! ### Concrete runs -/

/-- C6: for `"mississippi"` the returned list consists of the five repeats
`(1,3,2)`, `(2,1,2)`, `(2,3,2)`, `(5,1,2)`, `(8,1,2)`, each once. -/
theorem mississippi_repeats :
    ∃ r, g_MaximalPrimitiveTandemRepeats mississippi = some r ∧
      r.Perm [⟨1, 3, 2⟩, ⟨2, 1, 2⟩, ⟨2, 3, 2⟩, ⟨5, 1, 2⟩, ⟨8, 1, 2⟩] :=
  ⟨[⟨2, 1, 2⟩, ⟨5, 1, 2⟩, ⟨8, 1, 2⟩, ⟨1, 3, 2⟩, ⟨2, 3, 2⟩], by rfl, by decide⟩

/-- The list returned for `"na na na na na na na na hey hey hey goodbye"`. -/
theorem naHeyGoodbye_value :
    g_MaximalPrimitiveTandemRepeats naHeyGoodbye =
      some [⟨37, 1, 2⟩, ⟨0, 3, 8⟩, ⟨1, 3, 7⟩, ⟨2, 3, 7⟩, ⟨23, 4, 3⟩, ⟨24, 4, 3⟩,
            ⟨25, 4, 2⟩, ⟨26, 4, 2⟩] := by
  rfl

/-- C9, as stated, fails: the list returned for
`"na na na na na na na na hey hey hey goodbye"` is not made of `(0,3,8)` and
`(24,4,3)` alone. -/
theorem naHeyGoodbye_not_two :
    ¬ ∃ r, g_MaximalPrimitiveTandemRepeats naHeyGoodbye = some r ∧
      ∀ t, t ∈ r ↔ (t = ⟨0, 3, 8⟩ ∨ t = ⟨24, 4, 3⟩) := by
  rintro ⟨r, hr, h⟩
  rw [naHeyGoodbye_value] at hr
  cases hr
  have h1 := (h ⟨37, 1, 2⟩).mp (by simp)
  revert h1
  decide

/-- C9, amended: for `"na na na na na na na na hey hey hey goodbye"` the
returned list consists of eight repeats, each once: `(0,3,8)` and `(24,4,3)`,
the shifted occurrences `(1,3,7)`, `(2,3,7)`, `(23,4,3)`, `(25,4,2)`,
`(26,4,2)`, and `(37,1,2)`. -/
theorem naHeyGoodbye_repeats :
    ∃ r, g_MaximalPrimitiveTandemRepeats naHeyGoodbye = some r ∧
      r.Perm [⟨0, 3, 8⟩, ⟨1, 3, 7⟩, ⟨2, 3, 7⟩, ⟨23, 4, 3⟩, ⟨24, 4, 3⟩, ⟨25, 4, 2⟩,
              ⟨26, 4, 2⟩, ⟨37, 1, 2⟩] :=
  ⟨_, naHeyGoodbye_value, by decide⟩

/-- C7: a string of at most one character gives the empty list. -/
theorem short_string_empty (S : List Nat) (h : S.length ≤ 1) :
    g_MaximalPrimitiveTandemRepeats S = some [] := by
  simp [g_MaximalPrimitiveTandemRepeats, h]

theorem short_string_empty_witness :
    g_MaximalPrimitiveTandemRepeats [] = some [] ∧
    g_MaximalPrimitiveTandemRepeats [97] = some [] :=
  ⟨short_string_empty [] (by decide), short_string_empty [97] (by decide)⟩

/-- C5 at the string of two NUL characters: the bootstrap puts the end
position 2 into the class of the two NUL characters, the selection for period
one reports `(0,1,3)`, whose span 3 exceeds the length 2, and the refinement
then reads `index[3]`, outside the index of three entries. -/
theorem nul_string_run :
    s_Initial [0, 0] = some ([[0, 1, 2]], [0, 0, 0]) ∧
    s_SelectRepeats 1 [[0, 1, 2]] = [⟨0, 1, 3⟩] ∧
    ¬ (0 + 1 * 3 ≤ [0, 0].length) ∧
    s_Refine [[0, 1, 2]] [0, 0, 0] = none ∧
    g_MaximalPrimitiveTandemRepeats [0, 0] = none := by
  refine ⟨by rfl, by rfl, by decide, by rfl, by rfl⟩

/-- C8 at the string `"a\0"`, the character `a` followed by one NUL character:
the class of the end position 2 also holds the real position 1. -/
theorem nul_shares_sentinel_class :
    ∃ cls index, s_Initial [97, 0] = some (cls, index) ∧
      cls = [[0], [1, 2]] ∧
      ∃ c ∈ cls, [97, 0].length ∈ c ∧ ∃ i, i < [97, 0].length ∧ i ∈ c :=
  ⟨[[0], [1, 2]], [0, 1, 1], by rfl, rfl, [1, 2], by decide, by decide, 1, by decide,
    by decide⟩

/-! ### When `s_Refine` has a result -/

theorem refineSplit_some (index : List Int) : ∀ (c : List Nat) (splits out : List (List Nat)),
    refineSplit index c splits = some out →
    ∀ x ∈ c, ∃ k : Nat, k < splits.length ∧ index[x + 1]? = some (k : Int) := by
  intro c
  induction c with
  | nil => intro _ _ _ x hx; cases hx
  | cons a rest ih =>
    intro splits out h x hx
    simp only [refineSplit] at h
    cases hnext : index[a + 1]? with
    | none => rw [hnext] at h; cases h
    | some next =>
      rw [hnext] at h
      simp only at h
      split at h
      · rename_i hb
        rcases List.mem_cons.mp hx with hxa | hxr
        · subst hxa
          exact ⟨next.toNat, hb.2, by rw [hnext, Int.toNat_of_nonneg hb.1]⟩
        · obtain ⟨k, hk, hk2⟩ := ih _ out h x hxr
          exact ⟨k, by rw [List.length_set] at hk; exact hk, hk2⟩
      · cases h

theorem refineClasses_some (size : Nat) (index : List Int) :
    ∀ (l out : List (List Nat)), refineClasses size index l = some out →
    ∀ c ∈ l, 2 ≤ c.length →
      ∀ x ∈ c, ∃ k : Nat, k < size ∧ index[x + 1]? = some (k : Int) := by
  intro l
  induction l with
  | nil => intro _ _ c hc; cases hc
  | cons c0 rest ih =>
    intro out h c hc hlen x hx
    simp only [refineClasses] at h
    split at h
    · rename_i hle
      rcases List.mem_cons.mp hc with hc0 | hcr
      · subst hc0; omega
      · exact ih out h c hcr hlen x hx
    · cases hs : refineSplit index c0 (List.replicate size []) with
      | none => rw [hs] at h; cases h
      | some splits =>
        rw [hs] at h
        simp only at h
        cases hr : refineClasses size index rest with
        | none => rw [hr] at h; cases h
        | some res =>
          rcases List.mem_cons.mp hc with hc0 | hcr
          · subst hc0
            obtain ⟨k, hk, hk2⟩ := refineSplit_some index c _ splits hs x hx
            exact ⟨k, by rw [List.length_replicate] at hk; exact hk, hk2⟩
          · exact ih res hr c hcr hlen x hx

/-- The function `s_Refine` has a result exactly when every read
`index[x + 1]` and every access `splits[next]` is in range, and the result is
then the class list `refineSpec` with the index rebuilt from it. -/
theorem s_Refine_eq_some_iff (e : List (List Nat)) (index : List Int)
    (r : List (List Nat) × List Int) :
    s_Refine e index = some r ↔
      (∀ c ∈ e, 2 ≤ c.length →
        ∀ x ∈ c, ∃ k : Nat, k < e.length ∧ index[x + 1]? = some (k : Int)) ∧
      r = (refineSpec e.length index e,
        assignIndex (refineSpec e.length index e) 0 index) := by
  constructor
  · intro h
    have hb : ∀ c ∈ e, 2 ≤ c.length →
        ∀ x ∈ c, ∃ k : Nat, k < e.length ∧ index[x + 1]? = some (k : Int) := by
      unfold s_Refine at h
      cases hr : refineClasses e.length index e with
      | none => rw [hr] at h; cases h
      | some res => exact refineClasses_some e.length index e res hr
    refine ⟨hb, ?_⟩
    rw [s_Refine_eq e index hb] at h
    injection h with h
    exact h.symm
  · rintro ⟨hb, rfl⟩
    exact s_Refine_eq e index hb

theorem loopStates_induct (size : Nat) (P : LoopState → Prop)
    (hstep : ∀ st st1, P st → loopCond size st = true → loopBody st = some st1 → P st1) :
    ∀ (fuel : Nat) (st : LoopState), P st → ∀ s ∈ loopStates size fuel st, P s := by
  intro fuel
  induction fuel with
  | zero => intro st _ s hs; cases hs
  | succ fuel ih =>
    intro st hst s hs
    simp only [loopStates] at hs
    split at hs
    · rename_i hcond
      rcases List.mem_cons.mp hs with h | h
      · subst h; exact hst
      · cases hb : loopBody st with
        | none => rw [hb] at h; cases h
        | some st1 =>
          rw [hb] at h
          exact ih st1 (hstep st st1 hst hcond hb) s h
    · cases hs

theorem mapAppend_ne_nil : ∀ (m : List (Int × List Nat)) (key : Int) (v : Nat),
    (∀ kl ∈ m, kl.2 ≠ []) → ∀ kl ∈ mapAppend m key v, kl.2 ≠ [] := by
  intro m
  induction m with
  | nil =>
    intro key v _ kl hkl
    simp only [mapAppend, List.mem_singleton] at hkl
    subst hkl; simp
  | cons a rest ih =>
    intro key v h kl hkl
    obtain ⟨k, l⟩ := a
    simp only [mapAppend] at hkl
    split at hkl
    · rcases List.mem_cons.mp hkl with h1 | h1
      · subst h1; simp
      · exact h kl (List.mem_cons_of_mem _ h1)
    · split at hkl
      · rcases List.mem_cons.mp hkl with h1 | h1
        · subst h1; simp
        · exact h kl h1
      · rcases List.mem_cons.mp hkl with h1 | h1
        · subst h1; exact h (k, l) (List.mem_cons_self _ _)
        · exact ih key v (fun kl hkl => h kl (List.mem_cons_of_mem _ hkl)) kl h1

theorem initialStep_ne_nil {str : List Nat} {st st1 : InitState} {i : Nat}
    (h : initialStep str st i = some st1) (hne : ∀ kl ∈ st.eClass, kl.2 ≠ []) :
    ∀ kl ∈ st1.eClass, kl.2 ≠ [] := by
  simp only [initialStep] at h
  split at h
  · injection h with h
    subst h
    simp only
    split
    · exact mapAppend_ne_nil _ _ _ hne
    · exact mapAppend_ne_nil _ _ _ hne
  · cases h

theorem initialCollect_ne_nil {str : List Nat} : ∀ (k i : Nat) (st st1 : InitState),
    initialCollect str k i st = some st1 → (∀ kl ∈ st.eClass, kl.2 ≠ []) →
    ∀ kl ∈ st1.eClass, kl.2 ≠ [] := by
  intro k
  induction k with
  | zero =>
    intro i st st1 h hne
    simp only [initialCollect] at h
    injection h with h; subst h; exact hne
  | succ k ih =>
    intro i st st1 h hne
    simp only [initialCollect] at h
    cases hs : initialStep str st i with
    | none => rw [hs] at h; cases h
    | some st2 =>
      rw [hs] at h
      exact ih (i + 1) st2 st1 h (initialStep_ne_nil hs hne)

theorem s_Initial_ne_nil {S : List Nat} {cls : List (List Nat)} {index : List Int}
    (h : s_Initial S = some (cls, index)) : ∀ c ∈ cls, c ≠ [] := by
  unfold s_Initial at h
  cases hc : initialCollect S (S.length + 1) 0
      { pos := List.replicate 256 (-1), eClass := [], index := 0 } with
  | none => rw [hc] at h; cases h
  | some st =>
    rw [hc] at h
    simp only [Option.some.injEq, Prod.mk.injEq] at h
    obtain ⟨h1, -⟩ := h
    subst h1
    intro c hcm
    rw [List.mem_map] at hcm
    obtain ⟨kl, hkl, rfl⟩ := hcm
    exact initialCollect_ne_nil _ _ _ _ hc (by intro kl hkl; cases hkl) kl hkl

theorem refineSpec_ne_nil (size : Nat) (index : List Int) (l : List (List Nat)) :
    ∀ d ∈ refineSpec size index l, d ≠ [] := by
  intro d hd
  obtain ⟨c, -, -, hd1⟩ := mem_refineSpec.mp hd
  exact (mem_splitsOf.mp hd1).1

/-! ### The invariant holds at every state of the run -/

theorem runStates_inv {S : List Nat} (hnul : ∀ c ∈ S, c ≠ 0) (hrange : ∀ c ∈ S, c < 256) :
    ∀ st ∈ runStates S,
      Inv S st.p st.eClass st.index ∧ 1 ≤ st.p ∧ ∀ c ∈ st.eClass, c ≠ [] := by
  intro st hst
  unfold runStates at hst
  by_cases hlen : S.length ≤ 1
  · rw [if_pos hlen] at hst; cases hst
  · rw [if_neg hlen] at hst
    obtain ⟨cls, index, hinit, hinv⟩ := s_Initial_inv hnul hrange (by omega)
    rw [hinit] at hst
    refine loopStates_induct S.length
      (fun st => Inv S st.p st.eClass st.index ∧ 1 ≤ st.p ∧ ∀ c ∈ st.eClass, c ≠ [])
      ?_ _ _ ⟨hinv, le_refl 1, s_Initial_ne_nil hinit⟩ st hst
    intro s s1 hs _ hbody
    obtain ⟨hi, hp, -⟩ := hs
    rw [loopBody_eq hi hp] at hbody
    injection hbody with hbody
    subst hbody
    exact ⟨(hi.refine hp).2, by simp, refineSpec_ne_nil _ _ _⟩

theorem exists_max_mem : ∀ (l : List Nat), l ≠ [] → ∃ x ∈ l, ∀ y ∈ l, y ≤ x := by
  intro l
  induction l with
  | nil => intro h; exact absurd rfl h
  | cons a rest ih =>
    intro _
    by_cases hr : rest = []
    · subst hr
      exact ⟨a, by simp, by intro y hy; simp at hy; omega⟩
    · obtain ⟨x, hx, hmax⟩ := ih hr
      by_cases hax : a ≤ x
      · refine ⟨x, List.mem_cons_of_mem _ hx, ?_⟩
        intro y hy
        rcases List.mem_cons.mp hy with h | h
        · omega
        · exact hmax y h
      · refine ⟨a, List.mem_cons_self _ _, ?_⟩
        intro y hy
        rcases List.mem_cons.mp hy with h | h
        · omega
        · have := hmax y h; omega

theorem Inv.flatten_nodup {S : List Nat} {p : Nat} {cls : List (List Nat)} {index : List Int}
    (h : Inv S p cls index) : cls.flatten.Nodup := by
  rw [List.nodup_flatten]
  refine ⟨?_, h.disjoint⟩
  intro c hc
  exact (h.sorted c hc).imp (fun hab => Nat.ne_of_lt hab)

/-- Under the invariant a refinement step returns fewer member positions than
it receives, when it receives any. -/
theorem Inv.refine_totalSize_lt {S : List Nat} {p : Nat} {cls : List (List Nat)}
    {index : List Int} (h : Inv S p cls index) (hp : 1 ≤ p) (hne : cls ≠ [])
    (hcls : ∀ c ∈ cls, c ≠ []) :
    totalSize (refineSpec cls.length index cls) < totalSize cls := by
  have h1 := (h.refine hp).2
  unfold totalSize
  rw [← List.length_flatten, ← List.length_flatten]
  have hfl : cls.flatten ≠ [] := by
    cases hc : cls with
    | nil => exact absurd hc hne
    | cons c rest =>
      have hcne := hcls c (by rw [hc]; exact List.mem_cons_self _ _)
      intro hnil
      rw [List.flatten_cons, List.append_eq_nil] at hnil
      exact hcne hnil.1
  obtain ⟨x, hx, hmax⟩ := exists_max_mem _ hfl
  have hsub : (refineSpec cls.length index cls).flatten ⊆ cls.flatten.erase x := by
    intro y hy
    rw [List.mem_flatten] at hy
    obtain ⟨d, hd, hyd⟩ := hy
    obtain ⟨c, hc, hlen, hd1⟩ := mem_refineSpec.mp hd
    obtain ⟨-, k, -, rfl⟩ := mem_splitsOf.mp hd1
    have hyc := (List.mem_filter.mp hyd).1
    have hyin : y ∈ cls.flatten := List.mem_flatten.mpr ⟨c, hc, hyc⟩
    have hyx : y ≠ x := by
      intro hyx
      subst hyx
      obtain ⟨-, k1, d1, -, -, hd1, hy1, -⟩ := h.next_class hp hc hlen hyc
      have := hmax (y + 1) (List.mem_flatten.mpr ⟨d1, hd1, hy1⟩)
      omega
    exact (List.mem_erase_of_ne hyx).mpr hyin
  have hle := (h1.flatten_nodup.subperm hsub).length_le
  rw [List.length_erase_of_mem hx] at hle
  have : 0 < cls.flatten.length := List.length_pos.mpr hfl
  omega

/-! ### The maximal blocks of a class -/

theorem blocks_cons_head (p a : Nat) (rest : List Nat) :
    ∃ blk more, blocks p (a :: rest) = (a :: blk) :: more := by
  simp only [blocks]
  cases blocks p rest with
  | nil => exact ⟨[], [], rfl⟩
  | cons b more =>
    simp only
    split
    · exact ⟨b, more, rfl⟩
    · exact ⟨[], b :: more, rfl⟩

theorem blocks_flatten (p : Nat) : ∀ (l : List Nat), (blocks p l).flatten = l := by
  intro l
  induction l with
  | nil => rfl
  | cons a rest ih =>
    simp only [blocks]
    cases hb : blocks p rest with
    | nil => rw [hb] at ih; simp at ih; subst ih; rfl
    | cons b more =>
      rw [hb] at ih
      simp only
      split
      · simpa using ih
      · simpa using ih

theorem blocks_chain (p : Nat) : ∀ (l : List Nat),
    ∀ b ∈ blocks p l, b ≠ [] ∧ b.Chain' (fun x y => y = x + p) := by
  intro l
  induction l with
  | nil => intro b hb; cases hb
  | cons a rest ih =>
    intro b hb
    simp only [blocks] at hb
    cases hr : blocks p rest with
    | nil =>
      rw [hr] at hb
      simp only [List.mem_singleton] at hb
      subst hb
      exact ⟨by simp, List.chain'_singleton _⟩
    | cons b0 more =>
      rw [hr] at hb ih
      simp only at hb
      split at hb
      · rename_i hhead
        rcases List.mem_cons.mp hb with h | h
        · subst h
          refine ⟨by simp, ?_⟩
          rw [List.chain'_cons']
          refine ⟨?_, (ih b0 (List.mem_cons_self _ _)).2⟩
          intro y hy
          rw [hhead] at hy
          simp only [Option.mem_def, Option.some.injEq] at hy
          exact hy.symm
        · exact ih b (List.mem_cons_of_mem _ h)
      · rcases List.mem_cons.mp hb with h | h
        · subst h
          exact ⟨by simp, List.chain'_singleton _⟩
        · exact ih b h

theorem blocks_maximal (p : Nat) : ∀ (l : List Nat),
    (blocks p l).Chain' (fun b1 b2 => ∀ x ∈ b1.getLast?, ∀ y ∈ b2.head?, y ≠ x + p) := by
  intro l
  induction l with
  | nil => exact List.chain'_nil
  | cons a rest ih =>
    simp only [blocks]
    cases hr : blocks p rest with
    | nil => exact List.chain'_singleton _
    | cons b0 more =>
      rw [hr] at ih
      have hb0 : b0 ≠ [] := (blocks_chain p rest b0 (by rw [hr]; exact List.mem_cons_self _ _)).1
      simp only
      split
      · rw [List.chain'_cons'] at ih ⊢
        refine ⟨?_, ih.2⟩
        intro b2 hb2 x hx
        have : (a :: b0).getLast? = b0.getLast? := by
          cases b0 with
          | nil => exact absurd rfl hb0
          | cons c cs => rfl
        rw [this] at hx
        exact ih.1 b2 hb2 x hx
      · rename_i hhead
        rw [List.chain'_cons']
        refine ⟨?_, ih⟩
        intro b2 hb2 x hx y hy
        simp only [List.head?_cons, Option.mem_def, Option.some.injEq] at hb2
        subst hb2
        simp only [List.getLast?_singleton, Option.mem_def, Option.some.injEq] at hx
        subst hx
        intro hyx
        apply hhead
        rw [Option.mem_def] at hy
        rw [hy, hyx]

theorem progression_cons (start p e : Nat) :
    progression start p (e + 1) = start :: progression (start + p) p e := by
  induction e with
  | zero => simp [progression, List.range_succ]
  | succ e ih =>
    rw [progression_succ, ih, progression_succ]
    simp only [List.cons_append, Nat.mul_succ]
    congr 2
    congr 1
    omega

theorem progression_length (start p e : Nat) : (progression start p e).length = e := by
  simp [progression]

theorem blocks_head? {p : Nat} {l blk : List Nat} {more : List (List Nat)}
    (h : blocks p l = blk :: more) : blk.head? = l.head? := by
  cases l with
  | nil => simp [blocks] at h
  | cons a rest =>
    obtain ⟨blk1, more1, hb⟩ := blocks_cons_head p a rest
    rw [hb] at h
    injection h with h1 _
    subst h1
    rfl

theorem blocks_progression_append (p : Nat) (l : List Nat) : ∀ (e start : Nat), 1 ≤ e →
    l.head? ≠ some (start + p * e) →
    blocks p (progression start p e ++ l) = progression start p e :: blocks p l := by
  intro e
  induction e with
  | zero => intro start h; omega
  | succ e ih =>
    intro start _ hl
    rw [progression_cons, List.cons_append]
    simp only [blocks]
    rcases Nat.eq_zero_or_pos e with he | he
    · subst he
      have hnil : progression (start + p) p 0 = [] := by simp [progression]
      rw [hnil, List.nil_append]
      cases hb : blocks p l with
      | nil => rfl
      | cons blk more =>
        simp only
        rw [blocks_head? hb, if_neg (by simpa using hl)]
    · have hl2 : l.head? ≠ some (start + p + p * e) := by
        rw [Nat.mul_succ] at hl
        intro h; apply hl; rw [h]; congr 1; omega
      rw [ih (start + p) he hl2]
      simp only
      have hh : (progression (start + p) p e).head? = some (start + p) := by
        obtain ⟨e1, rfl⟩ : ∃ e1, e = e1 + 1 := ⟨e - 1, by omega⟩
        rw [progression_cons]; rfl
      rw [if_pos hh]

theorem blockRepeat_progression (p start e : Nat) (he : 1 ≤ e) :
    blockRepeat p (progression start p e) = if e > 1 then [⟨start, p, e⟩] else [] := by
  obtain ⟨e1, rfl⟩ : ∃ e1, e = e1 + 1 := ⟨e - 1, by omega⟩
  simp only [blockRepeat, progression_length]
  rw [progression_cons, List.headD_cons]
  by_cases h : 2 ≤ e1 + 1
  · rw [if_pos h, if_pos (by omega)]
  · rw [if_neg h, if_neg (by omega)]

/-- The probing loop, started after a block `start, start + p, ...` of `e`
elements has been read, returns the triples of the maximal blocks of that
block followed by the rest of the class. -/
theorem selectProbe_eq_blocks (p : Nat) : ∀ (rest : List Nat) (start e : Nat), 1 ≤ e →
    selectProbe p start e rest =
      ((blocks p (progression start p e ++ rest)).map (blockRepeat p)).flatten := by
  intro rest
  induction rest with
  | nil =>
    intro start e he
    have := blocks_progression_append p [] e start he (by simp)
    rw [this]
    simp only [selectProbe, blocks, List.map_cons, List.map_nil, List.flatten_cons,
      List.flatten_nil, List.append_nil, blockRepeat_progression p start e he]
  | cons cur rest1 ih =>
    intro start e he
    simp only [selectProbe]
    by_cases hne : start + p * e ≠ cur
    · rw [if_pos hne, ih cur 1 (le_refl 1), progression_one,
        blocks_progression_append p (cur :: rest1) e start he
          (by simp; exact fun h => hne h.symm)]
      simp only [List.map_cons, List.flatten_cons, blockRepeat_progression p start e he]
      rfl
    · have heq : start + p * e = cur := by
        by_contra h; exact hne h
      rw [if_neg hne, ih start (e + 1) (by omega), progression_succ, heq]
      simp

theorem selectClass_eq_selectSpec (p : Nat) (c : List Nat) :
    selectClass p c = selectSpec p c := by
  unfold selectClass selectSpec
  match c with
  | [] => rfl
  | [a] => simp [blocks, blockRepeat]
  | start :: cur :: rest =>
    rw [if_neg (by simp)]
    simp only
    rw [selectProbe_eq_blocks p _ start 1 (le_refl 1), progression_one]
    rfl

theorem s_SelectRepeats_eq (p : Nat) : ∀ (classes : List (List Nat)),
    s_SelectRepeats p classes = (classes.map (selectSpec p)).flatten := by
  intro classes
  induction classes with
  | nil => rfl
  | cons c rest ih =>
    simp only [s_SelectRepeats, List.map_cons, List.flatten_cons, ih,
      selectClass_eq_selectSpec]

/-! ### The classes and the index of the bootstrap -/

theorem InitInv.mem_class {S : List Nat} {m : Nat} {st : InitState}
    (h : InitInv S (S.length + 1) m st) {x : Nat} (hx : x ≤ S.length) :
    ∃ kl ∈ st.eClass, x ∈ kl.2 := by
  have hc256 := h.code_lt x (by omega)
  have h0 : 0 ≤ st.pos.getD (charCode S x) 0 := by
    by_contra hcon
    exact (h.pos_seen _ hc256).mp (by omega) x (by omega) rfl
  have hmem := key_mem_of_range h.keys h0 (h.pos_lt _ hc256)
  rw [List.mem_map] at hmem
  obtain ⟨kl, hkl, hk⟩ := hmem
  exact ⟨kl, hkl, (h.cls_mem kl hkl x).mpr ⟨by omega, hk.symm⟩⟩

theorem InitInv.same_class_iff {S : List Nat} {m : Nat} {st : InitState}
    (h : InitInv S (S.length + 1) m st) {kl : Int × List Nat} (hkl : kl ∈ st.eClass)
    {x y : Nat} (hx : x ∈ kl.2) (hy : y ≤ S.length) :
    y ∈ kl.2 ↔ charCode S x = charCode S y := by
  obtain ⟨hx1, hx2⟩ := (h.cls_mem kl hkl x).mp hx
  have h0 := (keys_lt_of_range h.keys kl hkl).1
  rw [h.cls_mem kl hkl y]
  constructor
  · rintro ⟨-, hk⟩
    exact h.pos_inj _ _ (h.code_lt x hx1) (h.code_lt y (by omega)) (by omega) (by omega)
  · intro he
    exact ⟨by omega, by rw [← he]; exact hx2⟩

theorem InitInv.classes_nodup {S : List Nat} {i m : Nat} {st : InitState}
    (h : InitInv S i m st) : (st.eClass.map Prod.snd).flatten.Nodup := by
  rw [List.nodup_flatten]
  refine ⟨?_, h.classes_disjoint⟩
  intro c hc
  rw [List.mem_map] at hc
  obtain ⟨kl, hkl, rfl⟩ := hc
  exact (h.cls_sorted kl hkl).imp (fun hab => Nat.ne_of_lt hab)

theorem eq_singleton_of_sorted {c : List Nat} {n : Nat} (hc : c.Pairwise (· < ·))
    (hn : n ∈ c) (hall : ∀ y ∈ c, y = n) : c = [n] := by
  match c, hc, hn, hall with
  | [a], _, _, hall => rw [hall a (by simp)]
  | a :: b :: rest, hc, _, hall =>
    exfalso
    have h1 := hall a (by simp)
    have h2 := hall b (by simp)
    have h3 := (List.pairwise_cons.mp hc).1 b (by simp)
    omega

/-- For a string without NUL characters whose characters index inside the
table `pos`, the classes `s_Initial` returns partition the positions
`0 .. |S|`: no class is empty, every position occurs exactly once in the
classes taken together, two positions are in the same class exactly when they
hold equal characters, the end position holding a marker that equals no
character, and the end position is a class on its own. -/
theorem bootstrap_partition (S : List Nat) (hnul : ∀ c ∈ S, c ≠ 0)
    (hrange : ∀ c ∈ S, c < 256) :
    ∃ cls index, s_Initial S = some (cls, index) ∧
      (∀ c ∈ cls, c ≠ []) ∧
      cls.flatten.Perm (List.range (S.length + 1)) ∧
      (∀ x y, x ≤ S.length → y ≤ S.length →
        ((∃ c ∈ cls, x ∈ c ∧ y ∈ c) ↔ S[x]? = S[y]?)) ∧
      [S.length] ∈ cls := by
  obtain ⟨m, st, h, hinit⟩ := s_Initial_collect hrange
  refine ⟨_, _, hinit, s_Initial_ne_nil hinit, ?_, ?_, ?_⟩
  · rw [List.perm_ext_iff_of_nodup h.classes_nodup (List.nodup_range _)]
    intro x
    rw [List.mem_flatten, List.mem_range]
    constructor
    · rintro ⟨c, hc, hx⟩
      rw [List.mem_map] at hc
      obtain ⟨kl, hkl, rfl⟩ := hc
      exact ((h.cls_mem kl hkl x).mp hx).1
    · intro hx
      obtain ⟨kl, hkl, hxk⟩ := h.mem_class (show x ≤ S.length by omega)
      exact ⟨kl.2, List.mem_map_of_mem _ hkl, hxk⟩
  · intro x y hx hy
    rw [← charCode_eq_iff hnul hx hy]
    constructor
    · rintro ⟨c, hc, hxc, hyc⟩
      rw [List.mem_map] at hc
      obtain ⟨kl, hkl, rfl⟩ := hc
      exact (h.same_class_iff hkl hxc hy).mp hyc
    · intro he
      obtain ⟨kl, hkl, hxk⟩ := h.mem_class hx
      exact ⟨kl.2, List.mem_map_of_mem _ hkl, hxk, (h.same_class_iff hkl hxk hy).mpr he⟩
  · obtain ⟨kl, hkl, hnk⟩ := h.mem_class (le_refl S.length)
    have : kl.2 = [S.length] := by
      refine eq_singleton_of_sorted (h.cls_sorted kl hkl) hnk ?_
      intro y hy
      have hy1 := ((h.cls_mem kl hkl y).mp hy).1
      have he := (h.same_class_iff hkl hnk (show y ≤ S.length by omega)).mp hy
      have he2 := (charCode_eq_iff hnul (le_refl _) (show y ≤ S.length by omega)).mp he
      by_contra hne
      rw [List.getElem?_eq_none_iff.mpr (le_refl _),
        List.getElem?_eq_getElem (show y < S.length by omega)] at he2
      cases he2
    rw [← this]
    exact List.mem_map_of_mem _ hkl

theorem bootstrap_partition_witness :
    ∃ cls index, s_Initial aabbcaabbc = some (cls, index) ∧
      (∀ c ∈ cls, c ≠ []) ∧
      cls.flatten.Perm (List.range (aabbcaabbc.length + 1)) ∧
      (∀ x y, x ≤ aabbcaabbc.length → y ≤ aabbcaabbc.length →
        ((∃ c ∈ cls, x ∈ c ∧ y ∈ c) ↔ aabbcaabbc[x]? = aabbcaabbc[y]?)) ∧
      [aabbcaabbc.length] ∈ cls :=
  bootstrap_partition aabbcaabbc (by decide) (by decide)

/-! ### The class list and the index of `s_Refine` -/

theorem mem_refineSpec_iff {size : Nat} {index : List Int} {l : List (List Nat)}
    (hb : ∀ c ∈ l, 2 ≤ c.length →
      ∀ x ∈ c, ∃ k : Nat, k < size ∧ index[x + 1]? = some (k : Int)) (x y : Nat) :
    (∃ d ∈ refineSpec size index l, x ∈ d ∧ y ∈ d) ↔
      ∃ c ∈ l, 2 ≤ c.length ∧ x ∈ c ∧ y ∈ c ∧ index[x + 1]? = index[y + 1]? := by
  constructor
  · rintro ⟨d, hd, hx, hy⟩
    obtain ⟨c, hc, hlen, hd1⟩ := mem_refineSpec.mp hd
    obtain ⟨-, k, -, rfl⟩ := mem_splitsOf.mp hd1
    rw [List.mem_filter] at hx hy
    exact ⟨c, hc, hlen, hx.1, hy.1,
      (of_decide_eq_true hx.2).trans (of_decide_eq_true hy.2).symm⟩
  · rintro ⟨c, hc, hlen, hx, hy, he⟩
    obtain ⟨k, hk, hxk⟩ := hb c hc hlen x hx
    refine ⟨c.filter (fun x => decide (index[x + 1]? = some (k : Int))), ?_, ?_, ?_⟩
    · refine mem_refineSpec.mpr ⟨c, hc, hlen, mem_splitsOf.mpr ⟨?_, k, hk, rfl⟩⟩
      intro hnil
      have : x ∈ c.filter (fun x => decide (index[x + 1]? = some (k : Int))) :=
        List.mem_filter.mpr ⟨hx, decide_eq_true hxk⟩
      rw [hnil] at this
      cases this
    · exact List.mem_filter.mpr ⟨hx, decide_eq_true hxk⟩
    · exact List.mem_filter.mpr ⟨hy, decide_eq_true (by rw [← he]; exact hxk)⟩

/-- For a string without NUL characters whose characters index inside the
table `pos`: at every call of `s_Refine` in the run the index has `|S| + 1`
entries and, for every member `x` of an input class of at least two members,
`x + 1 ≤ |S|` and `index[x + 1]` is the list position, below the number of
input classes, of a class of the current class list that holds `x + 1`. -/
theorem refine_reads_in_range (S : List Nat) (hnul : ∀ c ∈ S, c ≠ 0)
    (hrange : ∀ c ∈ S, c < 256) :
    ∀ st ∈ runStates S, st.index.length = S.length + 1 ∧
      ∀ c ∈ st.eClass, 2 ≤ c.length → ∀ x ∈ c,
        x + 1 ≤ S.length ∧
        ∃ (k : Nat) (d : List Nat), st.index[x + 1]? = some (k : Int) ∧
          k < st.eClass.length ∧ st.eClass[k]? = some d ∧ d ∈ st.eClass ∧ x + 1 ∈ d := by
  intro st hst
  obtain ⟨hinv, hp, -⟩ := runStates_inv hnul hrange st hst
  refine ⟨hinv.len, ?_⟩
  intro c hc hlen x hx
  obtain ⟨h1, k, d, hk, hkd, hd, hxd, hi⟩ := hinv.next_class hp hc hlen hx
  exact ⟨h1, k, d, hi, hk, hkd, hd, hxd⟩

theorem refine_reads_in_range_witness :
    (runStates mississippi).length = 5 ∧
    ∀ st ∈ runStates mississippi, st.index.length = mississippi.length + 1 ∧
      ∀ c ∈ st.eClass, 2 ≤ c.length → ∀ x ∈ c,
        x + 1 ≤ mississippi.length ∧
        ∃ (k : Nat) (d : List Nat), st.index[x + 1]? = some (k : Int) ∧
          k < st.eClass.length ∧ st.eClass[k]? = some d ∧ d ∈ st.eClass ∧ x + 1 ∈ d :=
  ⟨by rfl, refine_reads_in_range mississippi (by decide) (by decide)⟩

/-- C13: when every read `index[x + 1]` for a member `x` of a class
of at least two members is in range, `s_Refine` returns the concatenation,
over the input classes of at least two members in their order, of the
non-empty groups of the class by the value of `index[x + 1]`, in increasing
order of that value.  Two positions share an output class exactly when they
share an input class of at least two members and have equal `index[x + 1]`; no
output class is empty; the output positions are the members of the input
classes of at least two members; and when the input classes are pairwise
disjoint, no member of an input class of at most one member occurs in an
output class.  The example of the source comment is an instance. -/
theorem refine_rule (e : List (List Nat)) (index : List Int)
    (hb : ∀ c ∈ e, 2 ≤ c.length →
      ∀ x ∈ c, ∃ k : Nat, k < e.length ∧ index[x + 1]? = some (k : Int)) :
    (∃ index1, s_Refine e index = some (refineSpec e.length index e, index1)) ∧
    (∀ x y, (∃ d ∈ refineSpec e.length index e, x ∈ d ∧ y ∈ d) ↔
      ∃ c ∈ e, 2 ≤ c.length ∧ x ∈ c ∧ y ∈ c ∧ index[x + 1]? = index[y + 1]?) ∧
    (∀ d ∈ refineSpec e.length index e, d ≠ []) ∧
    (∀ x, (∃ d ∈ refineSpec e.length index e, x ∈ d) ↔ ∃ c ∈ e, 2 ≤ c.length ∧ x ∈ c) ∧
    (e.Pairwise List.Disjoint →
      ∀ c ∈ e, c.length ≤ 1 → ∀ x ∈ c, ∀ d ∈ refineSpec e.length index e, x ∉ d) := by
  refine ⟨⟨_, s_Refine_eq e index hb⟩, mem_refineSpec_iff hb, refineSpec_ne_nil _ _ _, ?_, ?_⟩
  · intro x
    constructor
    · rintro ⟨d, hd, hx⟩
      obtain ⟨c, hc, hlen, hx1, -⟩ := (mem_refineSpec_iff hb x x).mp ⟨d, hd, hx, hx⟩
      exact ⟨c, hc, hlen, hx1⟩
    · rintro ⟨c, hc, hlen, hx⟩
      obtain ⟨d, hd, hx1, -⟩ := (mem_refineSpec_iff hb x x).mpr ⟨c, hc, hlen, hx, hx, rfl⟩
      exact ⟨d, hd, hx1⟩
  · intro hdis c hc hlen x hx d hd hxd
    obtain ⟨c1, hc1, hlen1, hx1, -⟩ := (mem_refineSpec_iff hb x x).mp ⟨d, hd, hxd, hxd⟩
    have hne : c ≠ c1 := by
      intro h; subst h; omega
    have hsym : Symmetric (List.Disjoint (α := Nat)) := fun a b h => h.symm
    exact hdis.forall hsym hc hc1 hne hx hx1

theorem refine_rule_witness :
    (∃ index1, s_Refine [[0, 1, 5, 6], [2, 3, 7, 8], [4, 9], [10]]
        [0, 0, 1, 1, 2, 0, 0, 1, 1, 2, 3] =
      some ([[0, 5], [1, 6], [2, 7], [3, 8], [4], [9]], index1)) ∧
    s_Initial aabbcaabbc =
      some ([[0, 1, 5, 6], [2, 3, 7, 8], [4, 9], [10]], [0, 0, 1, 1, 2, 0, 0, 1, 1, 2, 3]) :=
  ⟨(refine_rule [[0, 1, 5, 6], [2, 3, 7, 8], [4, 9], [10]]
      [0, 0, 1, 1, 2, 0, 0, 1, 1, 2, 3] (by decide)).1, by rfl⟩

/-- C14: for every period `p`, `s_SelectRepeats(p, classes)` returns, class by
class in order and within a class from left to right, one triple
`(first, p, k)` for every maximal block of `k ≥ 2` consecutive elements in
which every element equals its predecessor plus `p`, and nothing for shorter
blocks; the blocks of a class are non-empty, make up the class, are chains of
step `p`, and no block can be continued by the first element of the next. -/
theorem select_rule (p : Nat) (classes : List (List Nat)) :
    s_SelectRepeats p classes =
      (classes.map (fun c => ((blocks p c).map (blockRepeat p)).flatten)).flatten ∧
    (∀ blk, blockRepeat p blk =
      if 2 ≤ blk.length then [⟨blk.headD 0, p, blk.length⟩] else []) ∧
    ∀ c, (blocks p c).flatten = c ∧
      (∀ b ∈ blocks p c, b ≠ [] ∧ b.Chain' (fun x y => y = x + p)) ∧
      (blocks p c).Chain' (fun b1 b2 => ∀ x ∈ b1.getLast?, ∀ y ∈ b2.head?, y ≠ x + p) :=
  ⟨s_SelectRepeats_eq p classes, fun _ => rfl,
    fun c => ⟨blocks_flatten p c, blocks_chain p c, blocks_maximal p c⟩⟩

theorem select_rule_witness :
    s_SelectRepeats 1 [[1, 2, 3, 5, 6]] = [⟨1, 1, 3⟩, ⟨5, 1, 2⟩] ∧
    s_SelectRepeats 2 [[1, 2, 3, 5, 6]] = [⟨3, 2, 2⟩] ∧
    s_SelectRepeats 1 [[], [4], [7, 9]] = [] :=
  ⟨(select_rule 1 [[1, 2, 3, 5, 6]]).1.trans (by rfl),
    (select_rule 2 [[1, 2, 3, 5, 6]]).1.trans (by rfl),
    (select_rule 1 [[], [4], [7, 9]]).1.trans (by rfl)⟩

/-- The index agrees with the class list.  For a string whose characters index
inside the table `pos`, `s_Initial` returns an index of `|S| + 1` entries in
which the entry of every position `i` from `0` to `|S|` is the list position
of a class that contains `i`.  When `s_Refine` is called with pairwise
disjoint classes, the new index maps every member of the output class at list
position `k` to `k`, and leaves the entries of the positions in no output
class unchanged. -/
theorem index_agrees (S : List Nat) (hrange : ∀ c ∈ S, c < 256)
    (e : List (List Nat)) (index : List Int) (hdis : e.Pairwise List.Disjoint) :
    (∃ cls index0, s_Initial S = some (cls, index0) ∧ index0.length = S.length + 1 ∧
      ∀ i, i ≤ S.length → ∃ (k : Nat) (c : List Nat),
        index0[i]? = some (k : Int) ∧ cls[k]? = some c ∧ i ∈ c) ∧
    (∀ out index1, s_Refine e index = some (out, index1) →
      index1.length = index.length ∧
      (∀ (k : Nat) (c : List Nat), out[k]? = some c → ∀ x ∈ c, index1[x]? = some (k : Int)) ∧
      (∀ x, (∀ c ∈ out, x ∉ c) → index1[x]? = index[x]?)) := by
  constructor
  · obtain ⟨m, st, h, hinit⟩ := s_Initial_collect hrange
    refine ⟨_, _, hinit, by rw [assignIndex_length, List.length_replicate], ?_⟩
    intro i hi
    obtain ⟨kl, hkl, hik⟩ := h.mem_class hi
    obtain ⟨k, hk⟩ := List.getElem?_of_mem (List.mem_map_of_mem Prod.snd hkl)
    refine ⟨k, kl.2, ?_, hk, hik⟩
    have := assignIndex_of_mem _ 0 (List.replicate (S.length + 1) (-1)) h.classes_disjoint
      k _ hk i hik (by rw [List.length_replicate]; omega)
    simpa using this
  · intro out index1 hr
    obtain ⟨hb, heq⟩ := (s_Refine_eq_some_iff e index _).mp hr
    simp only [Prod.mk.injEq] at heq
    obtain ⟨rfl, rfl⟩ := heq
    refine ⟨assignIndex_length _ _ _, ?_, ?_⟩
    · intro k c hk x hx
      obtain ⟨c0, hc0, hlen, hd1⟩ := mem_refineSpec.mp (List.getElem?_mem hk)
      obtain ⟨-, k0, -, rfl⟩ := mem_splitsOf.mp hd1
      obtain ⟨k1, -, hk1⟩ := hb c0 hc0 hlen x (List.mem_filter.mp hx).1
      have hxlen : x < index.length := by
        by_contra hcon
        rw [List.getElem?_eq_none_iff.mpr (by omega)] at hk1
        cases hk1
      have := assignIndex_of_mem _ 0 index (refineSpec_disjoint _ _ _ hdis) k _ hk x hx hxlen
      simpa using this
    · intro x hx
      exact assignIndex_of_not_mem _ 0 index x hx

theorem docExample_disjoint :
    ([[0, 1, 5, 6], [2, 3, 7, 8], [4, 9], [10]] : List (List Nat)).Pairwise List.Disjoint := by
  simp [List.Disjoint]

theorem index_agrees_witness :
    (∃ cls index0, s_Initial aabbcaabbc = some (cls, index0) ∧
      index0.length = aabbcaabbc.length + 1 ∧
      ∀ i, i ≤ aabbcaabbc.length → ∃ (k : Nat) (c : List Nat),
        index0[i]? = some (k : Int) ∧ cls[k]? = some c ∧ i ∈ c) ∧
    (∀ out index1, s_Refine [[0, 1, 5, 6], [2, 3, 7, 8], [4, 9], [10]]
        [0, 0, 1, 1, 2, 0, 0, 1, 1, 2, 3] = some (out, index1) →
      index1.length = [0, 0, 1, 1, 2, 0, 0, 1, 1, 2, (3 : Int)].length ∧
      (∀ (k : Nat) (c : List Nat), out[k]? = some c → ∀ x ∈ c, index1[x]? = some (k : Int)) ∧
      (∀ x, (∀ c ∈ out, x ∉ c) →
        index1[x]? = [0, 0, 1, 1, 2, 0, 0, 1, 1, 2, (3 : Int)][x]?)) ∧
    s_Refine [[0, 1, 5, 6], [2, 3, 7, 8], [4, 9], [10]] [0, 0, 1, 1, 2, 0, 0, 1, 1, 2, 3] =
      some ([[0, 5], [1, 6], [2, 7], [3, 8], [4], [9]], [0, 1, 2, 3, 4, 0, 1, 2, 3, 5, 3]) :=
  ⟨(index_agrees aabbcaabbc (by decide) [[0, 1, 5, 6], [2, 3, 7, 8], [4, 9], [10]]
      [0, 0, 1, 1, 2, 0, 0, 1, 1, 2, 3] docExample_disjoint).1,
    (index_agrees aabbcaabbc (by decide) [[0, 1, 5, 6], [2, 3, 7, 8], [4, 9], [10]]
      [0, 0, 1, 1, 2, 0, 0, 1, 1, 2, 3] docExample_disjoint).2, by rfl⟩

/-- In the run on a string without NUL characters whose characters index
inside the table `pos`, every call of `s_Refine` with a non-empty class list
returns a class list whose total number of member positions is smaller than
that of its input. -/
theorem refine_shrinks (S : List Nat) (hnul : ∀ c ∈ S, c ≠ 0)
    (hrange : ∀ c ∈ S, c < 256) :
    ∀ st ∈ runStates S, st.eClass ≠ [] →
      ∃ out index1, s_Refine st.eClass st.index = some (out, index1) ∧
        totalSize out < totalSize st.eClass := by
  intro st hst hne
  obtain ⟨hinv, hp, hcls⟩ := runStates_inv hnul hrange st hst
  exact ⟨_, _, (hinv.refine hp).1, hinv.refine_totalSize_lt hp hne hcls⟩

theorem refine_shrinks_witness :
    (runStates mississippi).map (fun st => totalSize st.eClass) = [12, 10, 6, 4, 2] ∧
    ∀ st ∈ runStates mississippi, st.eClass ≠ [] →
      ∃ out index1, s_Refine st.eClass st.index = some (out, index1) ∧
        totalSize out < totalSize st.eClass :=
  ⟨by rfl, refine_shrinks mississippi (by decide) (by decide)⟩

/-! ### The order of the returned list -/

/-- C1 at `"\xff\xff\xff"` with signed `char`: `(0, 1, 3)` is a maximal
primitive tandem repeat of this string without NUL characters; the first table
access of `s_Initial` is outside `pos`, so the driver has no defined result;
and the selection from the class list `{{0, 1, 2, 3}}` reports `(0, 1, 4)`
and not `(0, 1, 3)`. -/
theorem highBytes_repeat_not_reported :
    (∀ c ∈ highBytes, c ≠ 0) ∧
    IsMaximalPrimitiveTandemRepeat highBytes ⟨0, 1, 3⟩ ∧
    initialStep highBytes { pos := List.replicate 256 (-1), eClass := [], index := 0 } 0 =
      none ∧
    g_MaximalPrimitiveTandemRepeats highBytes = none ∧
    (⟨0, 1, 3⟩ : STandemRepeat) ∉ s_SelectRepeats 1 [[0, 1, 2, 3]] := by
  refine ⟨by decide, ⟨⟨by decide, by decide, by decide, ?_⟩, ?_, ?_⟩, by rfl, by rfl,
    by decide⟩
  · intro j _ h2
    simp only at h2
    interval_cases j <;> rfl
  · refine isPrimitive_of_no_period (by decide) (by decide) ?_
    intro q h1 h2 _
    simp only at h2
    omega
  · constructor
    · intro h; simp at h
    · intro h; exact absurd h (by decide)

/-- C2 at `"\xff\xff\xff"` with signed `char`: the driver has no defined
result, because `s_Initial` reads outside the table `pos`; the selection for
period one from the class list `{{0, 1, 2, 3}}` is `(0, 1, 4)`, whose span 4
exceeds the length 3 of the string. -/
theorem highBytes_span_past_end :
    (∀ c ∈ highBytes, c ≠ 0) ∧
    g_MaximalPrimitiveTandemRepeats highBytes = none ∧
    s_SelectRepeats 1 [[0, 1, 2, 3]] = [⟨0, 1, 4⟩] ∧
    ¬ (0 + 1 * 4 ≤ highBytes.length) ∧
    ¬ IsTandem highBytes ⟨0, 1, 4⟩ := by
  refine ⟨by decide, by rfl, by rfl, by decide, ?_⟩
  intro h
  exact absurd h.2.2.1 (by decide)

/-- C11 at `"\xff\xff\xff"` with signed `char`: `s_Initial` reads outside the
table `pos`; for the class list `{{0, 1, 2, 3}}` the member `3` has
`3 + 1 > |S|`, the read `index[3 + 1]` is outside the index of four entries,
and `s_Refine` has no defined result. -/
theorem highBytes_refine_reads_past_index :
    (∀ c ∈ highBytes, c ≠ 0) ∧
    s_Initial highBytes = none ∧
    ¬ (3 + 1 ≤ highBytes.length) ∧
    ([0, 0, 0, 0] : List Int)[3 + 1]? = none ∧
    s_Refine [[0, 1, 2, 3]] [0, 0, 0, 0] = none := by
  refine ⟨by decide, by rfl, by decide, by rfl, by rfl⟩

/-- C12 at `"\xff\xff\xff"` with signed `char`: the table index of the first
character is `2 ^ 64 - 1`, not below 256, and `s_Initial` has no defined
result: it returns no partition. -/
theorem highBytes_no_partition :
    (∀ c ∈ highBytes, c ≠ 0) ∧
    charCode highBytes 0 = 2 ^ 64 - 1 ∧
    ¬ (charCode highBytes 0 < (List.replicate 256 (-1 : Int)).length) ∧
    ¬ ∃ cls index, s_Initial highBytes = some (cls, index) := by
  refine ⟨by decide, by rfl, by decide, ?_⟩
  rintro ⟨cls, index, h⟩
  exact absurd h (by rw [show s_Initial highBytes = none from by rfl]; simp)

/-- C17 at `"\xff\xff\xff"` with signed `char`: the run of the driver has no
defined state, because `s_Initial` reads outside the table `pos`; and for the
non-empty class list `{{0, 1, 2, 3}}` the call of `s_Refine` reads outside the
index and returns no class list. -/
theorem highBytes_refine_no_result :
    (∀ c ∈ highBytes, c ≠ 0) ∧
    runStates highBytes = [] ∧
    g_MaximalPrimitiveTandemRepeats highBytes = none ∧
    totalSize [[0, 1, 2, 3]] = 4 ∧
    ¬ ∃ out index1, s_Refine [[0, 1, 2, 3]] [0, 0, 0, 0] = some (out, index1) := by
  refine ⟨by decide, by rfl, by rfl, by rfl, ?_⟩
  rintro ⟨out, index1, h⟩
  exact absurd h (by rw [show s_Refine [[0, 1, 2, 3]] [0, 0, 0, 0] = none from by rfl]; simp)

end Repetition
